import Mathlib

/-!
Verification of the cm256-backed Reed-Solomon erasure codec.

This file gives a shallow embedding of the Rust sources:

- `src/cm256.rs` — the `CM256ReedSolomon` wrapper (`new`, `encode`, `verify`,
  `reconstruct`, `reconstruct_data` and their helpers).  These are embedded as
  computable Lean functions, parametric over the byte type `β` and over the
  foreign cm256 primitives (a `CM256Ffi` record), mirroring the way the Rust
  code is parametric over the linked C library.
- `src/cm256_ffi.rs` — the FFI surface: `CM256EncoderParams`, `CM256Block`
  and the declarations of the external C functions `cm256_encode_block` and
  `cm256_decode`.  The C functions themselves are not part of the repository,
  so they are modelled from the specification (see the `Modelled from the
  spec:` definitions below), over GF(256) realised as `GaloisField 2 8`.
- `src/isa_l.rs` — the ISA-L systematic codec adapter (`try_code_some_slices`,
  `isal_min_shards`), embedded with release-build semantics (the Rust
  `debug_assert!` checks are compiled out) and `usize` arithmetic taken
  modulo `2 ^ 64`.

Rust `panic!`/`unwrap`/`expect` sites are modelled by the outer `Option` layer
of a result: `none` is a panic, `some (.error e)` an `Err(e)`, `some (.ok x)`
an `Ok` carrying the final state of the caller-visible shard buffers.
-/

namespace RSE

/-- Modelled from the spec: the error taxonomy of `crate::errors::Error`
(the `errors` module is not among the sources; the variants are the ones the
spec's section 7 names and `cm256.rs` constructs). -/
inductive Error where
  | TooFewDataShards
  | TooManyDataShards
  | TooFewParityShards
  | TooManyParityShards
  | TooFewShards
  | TooManyShards
  | EmptyShard
  | IncorrectShardSize
  | TooFewShardsPresent
deriving DecidableEq, Repr

/-- Encoder / decoder parameters (`CM256EncoderParams` in `cm256_ffi.rs`). -/
structure CM256EncoderParams where
  original_count : Nat
  recovery_count : Nat
  block_bytes : Nat
deriving DecidableEq

/-- Block descriptor (`CM256Block` in `cm256_ffi.rs`): the buffer a block
pointer designates, paired with the block's global index (a `u8` in the
source; every valid configuration keeps it below 256). -/
structure CM256Block (β : Type) where
  block : List β
  index : Nat

instance (β : Type) : Inhabited (CM256Block β) := ⟨⟨[], 0⟩⟩

/-- The foreign cm256 primitives that `cm256.rs` calls through the FFI.
`encode_block` returns the recovery block written through the destination
pointer; `decode` returns the mutated block array (`none` models a non-zero
return code). -/
structure CM256Ffi (β : Type) where
  encode_block : CM256EncoderParams → List (CM256Block β) → Nat → List β
  decode : CM256EncoderParams → List (CM256Block β) → Option (List (CM256Block β))

/-- The `CM256ReedSolomon` struct of `cm256.rs`. -/
structure CM256ReedSolomon where
  data_shard_count : Nat
  parity_shard_count : Nat
  total_shard_count : Nat
deriving DecidableEq

/-- `CM256ReedSolomon::new` (`cm256.rs` lines 43-61).  The one-time
`ensure_init` native initialization is process bootstrap and out of scope. -/
def new (data_shards parity_shards : Nat) : Except Error CM256ReedSolomon :=
  if data_shards = 0 then .error .TooFewDataShards
  else if parity_shards = 0 then .error .TooFewParityShards
  else if data_shards + parity_shards > 256 then .error .TooManyShards
  else .ok ⟨data_shards, parity_shards, data_shards + parity_shards⟩

/-- `CM256ReedSolomon::params`. -/
def CM256ReedSolomon.params (r : CM256ReedSolomon) (block_bytes : Nat) : CM256EncoderParams :=
  ⟨r.data_shard_count, r.parity_shard_count, block_bytes⟩

/-- `CM256ReedSolomon::check_all` (`cm256.rs` lines 389-397). -/
def CM256ReedSolomon.check_all (r : CM256ReedSolomon) (count : Nat) : Except Error Unit :=
  if count < r.total_shard_count then .error .TooFewShards
  else if count > r.total_shard_count then .error .TooManyShards
  else .ok ()

/-- `CM256ReedSolomon::check_slices_uniform` (`cm256.rs` lines 399-413). -/
def check_slices_uniform {β : Type} (slices : List (List β)) : Except Error Unit :=
  match slices with
  | [] => .ok ()
  | s :: rest =>
    if s.length = 0 then .error .EmptyShard
    else if rest.all fun t => t.length == s.length then .ok ()
    else .error .IncorrectShardSize

/-- `CM256ReedSolomon::encode_raw` (`cm256.rs` lines 147-179): builds the
block descriptors for the data shards and encodes each recovery block
directly into its parity slot; the returned list is the new parity area
(`parity_count` slots, each fully overwritten). -/
def encode_raw {β : Type} (ffi : CM256Ffi β) (r : CM256ReedSolomon)
    (data : List (List β)) (parity_count shard_size : Nat) : List (List β) :=
  let ps := r.params shard_size
  let blocks := data.enum.map fun p => (⟨p.2, p.1⟩ : CM256Block β)
  (List.range parity_count).map fun i => ffi.encode_block ps blocks (r.data_shard_count + i)

/-- `CM256ReedSolomon::encode` (`cm256.rs` lines 92-104).  The `.ok` payload
is the final state of the combined shard list (data read-only, parity
overwritten); `none` models the panic of indexing `slices[0]` on an empty
slice list. -/
def encode {β : Type} (ffi : CM256Ffi β) (r : CM256ReedSolomon)
    (shards : List (List β)) : Option (Except Error (List (List β))) :=
  match r.check_all shards.length with
  | .error e => some (.error e)
  | .ok _ =>
    match check_slices_uniform shards with
    | .error e => some (.error e)
    | .ok _ =>
      match shards with
      | [] => none
      | s :: _ =>
        some (.ok (shards.take r.data_shard_count ++
          encode_raw ffi r (shards.take r.data_shard_count)
            (shards.length - r.data_shard_count) s.length))

/-- The shard-size / presence scan at the head of
`CM256ReedSolomon::reconstruct_internal` (`cm256.rs` lines 252-268).  The
accumulator carries the running `(shard_size, present)` state. -/
def scan_shards {β : Type} (acc : Option Nat × Nat) :
    List (Option (List β)) → Except Error (Option Nat × Nat)
  | [] => .ok acc
  | none :: rest => scan_shards acc rest
  | some v :: rest =>
    if v.length = 0 then .error .EmptyShard
    else
      match acc.1 with
      | some sz =>
        if v.length ≠ sz then .error .IncorrectShardSize
        else scan_shards (some v.length, acc.2 + 1) rest
      | none => scan_shards (some v.length, acc.2 + 1) rest

/-- The `recovery_iter` search inside `reconstruct_internal` (`cm256.rs`
lines 308-313): the first present index in `[cursor, stop)`; `none` models
the `.expect("not enough recovery shards")` panic. -/
def next_present {β : Type} (shards : List (Option (List β))) (stop : Nat) (cursor : Nat) :
    Option Nat :=
  if cursor < stop then
    if (shards.getD cursor none).isSome then some cursor
    else next_present shards stop (cursor + 1)
  else none
termination_by stop - cursor

/-- The block-list construction loop of `reconstruct_internal` (`cm256.rs`
lines 300-325): walks the data indices `is`, pushing present data shards
as-is and, for each missing one, a clone of the next present recovery shard;
`pos` mirrors `blocks.len()` at each push, and the returned second component
is the list of `block_pos` values recorded in `recovery_entries`. -/
def build_blocks {β : Type} (shards : List (Option (List β))) (stop : Nat) :
    List Nat → Nat → Nat → Option (List (CM256Block β) × List Nat)
  | [], _, _ => some ([], [])
  | i :: rest, cursor, pos =>
    match shards.getD i none with
    | some v =>
      (build_blocks shards stop rest cursor (pos + 1)).map fun q =>
        (⟨v, i⟩ :: q.1, q.2)
    | none =>
      match next_present shards stop cursor with
      | none => none
      | some ri =>
        let buf := (shards.getD ri none).getD []
        (build_blocks shards stop rest (ri + 1) (pos + 1)).map fun q =>
          (⟨buf, ri⟩ :: q.1, pos :: q.2)

/-- The write-back loop of `reconstruct_internal` (`cm256.rs` lines 332-336):
each recorded block position yields the decoded buffer, moved into the shard
slot named by the block's (decoder-updated) index. -/
def apply_entries {β : Type} (decoded : List (CM256Block β)) (entries : List Nat)
    (shards : List (Option (List β))) : List (Option (List β)) :=
  entries.foldl (fun sh pos =>
    let b := decoded.getD pos default
    sh.set b.index (some b.block)) shards

/-- The missing-data recovery phase of `reconstruct_internal` (`cm256.rs`
lines 280-337). -/
def recover_data {β : Type} (ffi : CM256Ffi β) (ps : CM256EncoderParams)
    (r : CM256ReedSolomon) (shards : List (Option (List β))) :
    Option (Except Error (List (Option (List β)))) :=
  let data_missing := (List.range r.data_shard_count).filter fun i =>
    (shards.getD i none).isNone
  if data_missing.isEmpty then some (.ok shards)
  else
    match build_blocks shards r.total_shard_count (List.range r.data_shard_count)
        r.data_shard_count 0 with
    | none => none
    | some (blocks, entries) =>
      match ffi.decode ps blocks with
      | none => some (.error .TooFewShardsPresent)
      | some decoded => some (.ok (apply_entries decoded entries shards))

/-- The missing-parity recomputation phase of `reconstruct_internal`
(`cm256.rs` lines 339-380): rebuilds block descriptors from the now-complete
data shards (`none` models the `unwrap` panic on a still-missing data shard)
and encodes exactly the missing parity rows into fresh buffers. -/
def recompute_parity {β : Type} (ffi : CM256Ffi β) (ps : CM256EncoderParams)
    (r : CM256ReedSolomon) (shards : List (Option (List β))) :
    Option (List (Option (List β))) :=
  let parity_missing := (List.range' r.data_shard_count
    (r.total_shard_count - r.data_shard_count)).filter fun i =>
      (shards.getD i none).isNone
  if parity_missing.isEmpty then some shards
  else
    if (List.range r.data_shard_count).all fun i => (shards.getD i none).isSome then
      let blocks := (List.range r.data_shard_count).map fun i =>
        (⟨(shards.getD i none).getD [], i⟩ : CM256Block β)
      some (parity_missing.foldl (fun sh idx =>
        sh.set idx (some (ffi.encode_block ps blocks
          (r.data_shard_count + (idx - r.data_shard_count))))) shards)
    else none

/-- `CM256ReedSolomon::reconstruct_internal` (`cm256.rs` lines 245-383). -/
def reconstruct_internal {β : Type} (ffi : CM256Ffi β) (r : CM256ReedSolomon)
    (shards : List (Option (List β))) (data_only : Bool) :
    Option (Except Error (List (Option (List β)))) :=
  match r.check_all shards.length with
  | .error e => some (.error e)
  | .ok _ =>
    match scan_shards (none, 0) shards with
    | .error e => some (.error e)
    | .ok ss =>
      if ss.2 = r.total_shard_count then some (.ok shards)
      else if ss.2 < r.data_shard_count then some (.error .TooFewShardsPresent)
      else
        match ss.1 with
        | none => none
        | some shard_size =>
          match recover_data ffi (r.params shard_size) r shards with
          | none => none
          | some (.error e) => some (.error e)
          | some (.ok shards1) =>
            if data_only then some (.ok shards1)
            else
              match recompute_parity ffi (r.params shard_size) r shards1 with
              | none => none
              | some shards2 => some (.ok shards2)

/-- `CM256ReedSolomon::reconstruct` (`cm256.rs` lines 236-238). -/
def reconstruct {β : Type} (ffi : CM256Ffi β) (r : CM256ReedSolomon)
    (shards : List (Option (List β))) : Option (Except Error (List (Option (List β)))) :=
  reconstruct_internal ffi r shards false

/-- `CM256ReedSolomon::reconstruct_data` (`cm256.rs` lines 241-243). -/
def reconstruct_data {β : Type} (ffi : CM256Ffi β) (r : CM256ReedSolomon)
    (shards : List (Option (List β))) : Option (Except Error (List (Option (List β)))) :=
  reconstruct_internal ffi r shards true

/-! The spec-model of the cm256 C library.

`cm256_encode_block` and `cm256_decode` are `extern "C"` declarations in
`cm256_ffi.rs`; their bodies are not part of this repository.  They are
modelled here from the specification: shard bytes are elements of GF(256)
(`GaloisField 2 8`), and the Cauchy-type MDS construction is realised in its
generalized Reed-Solomon form — every shard of global index `idx` is the
evaluation, at a point `pt idx`, of the degree `< k` polynomial interpolating
the `k` data shards at the points `pt 0, …, pt (k-1)`.  The induced parity
rows are GF(256) linear combinations of the data shards by a (generalized)
Cauchy coefficient matrix, and the construction is MDS: any `k` of the
`k + m ≤ 256` shards determine the interpolant, hence all data. -/

/-- Modelled from the spec: shard bytes live in the 256-element field GF(256)
(the spec's "GF(256) … byte-wise linear-algebra"). -/
abbrev GFByte := GaloisField 2 8

noncomputable instance : Fintype GFByte := Fintype.ofFinite _

noncomputable instance : DecidableEq GFByte := Classical.decEq _

/-- Modelled from the spec: the evaluation points of the Cauchy/GRS
construction — 256 pairwise distinct elements of GF(256), one for each
possible global shard index. -/
noncomputable def pt (n : Nat) : GFByte :=
  (Fintype.equivFin GFByte).symm
    (Fin.cast (by
        have h := GaloisField.card (p := 2) (n := 8) (by norm_num)
        rw [Nat.card_eq_fintype_card] at h
        norm_num at h
        exact h.symm)
      ⟨n % 256, Nat.mod_lt n (by norm_num)⟩)

/-- Modelled from the spec: the value of the shard of global index `idx` in
the codeword determined by the data shards `d 0, …, d (k-1)` (one byte
position at a time). -/
noncomputable def codeword (k : Nat) (d : Nat → GFByte) (idx : Nat) : GFByte :=
  Polynomial.eval (pt idx) (Lagrange.interpolate (Finset.range k) pt d)

/-- Modelled from the spec: the external C routine `cm256_encode_block` —
"Encode a single recovery block": the recovery block of index
`recovery_block_index` is the per-position linear combination of the `k`
original blocks given by the MDS construction. -/
noncomputable def cm256_encode_block (ps : CM256EncoderParams)
    (originals : List (CM256Block GFByte)) (recovery_block_index : Nat) : List GFByte :=
  (List.range ps.block_bytes).map fun p =>
    codeword ps.original_count
      (fun i => (originals.getD i default).block.getD p 0) recovery_block_index

/-- Modelled from the spec: the reconstructed original block `i`, obtained by
solving the linear system implied by the supplied blocks — interpolation
through the `k` supplied evaluations, read back at the point of index `i`. -/
noncomputable def recovered_block (ps : CM256EncoderParams)
    (blocks : List (CM256Block GFByte)) (i : Nat) : List GFByte :=
  (List.range ps.block_bytes).map fun p =>
    Polynomial.eval (pt i)
      (Lagrange.interpolate (blocks.map CM256Block.index).toFinset pt
        fun idx => ((blocks.find? fun b => b.index == idx).getD default).block.getD p 0)

/-- Modelled from the spec: the in-place rewriting performed by
`cm256_decode` — walking the block array, recovery blocks (index at or above
`original_count`) are "replaced with the reconstructed original data and
their index is updated", taking the missing original indices in ascending
order. -/
noncomputable def decode_assign (ps : CM256EncoderParams) (all : List (CM256Block GFByte)) :
    List (CM256Block GFByte) → List Nat → List (CM256Block GFByte)
  | [], _ => []
  | b :: rest, missing =>
    if b.index < ps.original_count then b :: decode_assign ps all rest missing
    else
      match missing with
      | [] => b :: decode_assign ps all rest []
      | i :: ms => ⟨recovered_block ps all i, i⟩ :: decode_assign ps all rest ms

/-- Modelled from the spec: the external C routine `cm256_decode` — given an
array of `original_count` blocks with pairwise distinct valid indices, it
recovers the missing originals in place and returns 0; an ill-formed block
array is the failure ("insufficient independent information") case. -/
noncomputable def cm256_decode (ps : CM256EncoderParams)
    (blocks : List (CM256Block GFByte)) : Option (List (CM256Block GFByte)) :=
  let idxs := blocks.map CM256Block.index
  if blocks.length = ps.original_count ∧ idxs.Nodup ∧
      ∀ i ∈ idxs, i < ps.original_count + ps.recovery_count then
    some (decode_assign ps blocks blocks
      ((List.range ps.original_count).filter fun i => decide (i ∉ idxs)))
  else none

/-- Modelled from the spec: the cm256 library as the `CM256Ffi` record the
wrapper links against. -/
noncomputable def cm256Ffi : CM256Ffi GFByte := ⟨cm256_encode_block, cm256_decode⟩


/-! The `isa_l.rs` adapter. -/

/-- `ISA_L_TABLE_BYTES_PER_COEFF` (`isa_l.rs` line 15). -/
def ISA_L_TABLE_BYTES_PER_COEFF : Nat := 32

/-- `ISA_L_ALIGN_BYTES` (`isa_l.rs` line 16). -/
def ISA_L_ALIGN_BYTES : Nat := 32

/-- `ISA_L_MIN_SHARDS_DEFAULT` (`isa_l.rs` line 17). -/
def ISA_L_MIN_SHARDS_DEFAULT : Nat := 16

/-- Modelled from the spec: Rust `usize::from_str` as used by
`val.parse::<usize>()` — an optional leading plus sign, then one or more
ASCII digits, rejecting overflow past the 64-bit platform size type. -/
def parse_usize (s : String) : Option Nat :=
  let cs := match s.data with
    | c :: rest => if c = '+' then rest else s.data
    | [] => s.data
  if cs ≠ [] ∧ cs.all Char.isDigit then
    let v := cs.foldl (fun acc c => acc * 10 + (c.toNat - 48)) 0
    if v < 2 ^ 64 then some v else none
  else none

/-- `isal_min_shards` (`isa_l.rs` lines 19-27), with the value of the
`RSE_ISA_L_MIN_SHARDS` process environment variable passed explicitly; the
`OnceLock` adds process-lifetime caching with no further functional
content. -/
def isal_min_shards (env : Option String) : Nat :=
  (env.bind parse_usize).getD ISA_L_MIN_SHARDS_DEFAULT

/-- The Rust `usize` modulus: release-build arithmetic wraps modulo
`2 ^ 64`. -/
def USIZE_MOD : Nat := 2 ^ 64

/-- Modelled from the spec: `core::alloc::Layout::from_size_align` validity —
the alignment must be a power of two and the size, rounded up to the
alignment, must not exceed `isize::MAX`. -/
def layout_from_size_align_ok (size align : Nat) : Bool :=
  (align != 0) && (Nat.land align (align - 1) == 0) &&
    decide (size ≤ 2 ^ 63 - 1 - (align - 1))

/-- Modelled from the spec: `AlignedBuf::new` (`isa_l.rs` lines 34-45) — the
aligned, zero-initialized allocation capability of spec section 4.1; layout
validation follows `Layout::from_size_align`, and the allocation itself is
modelled as succeeding (allocation failure is an environmental capacity
condition, not decided by the inputs). -/
def alignedBuf_new_ok (len align : Nat) : Bool :=
  layout_from_size_align_ok len align

/-- The Rust `isize::MAX` bound: a `Vec` capacity request above this many
bytes panics with a capacity-overflow error, deterministically and in every
build profile. -/
def ISIZE_MAX : Nat := 2 ^ 63 - 1

/-- `try_code_some_slices` (`isa_l.rs` lines 78-170) under release-build
semantics.  The `debug_assert!` checks (lines 91-109, 114, 121, 125-129)
are compiled out, and the `usize` products `k * rows` (line 126) and
`coeffs_len * 32` (line 130) wrap modulo `2 ^ 64`.  Deterministic panics
are modelled as `none`, in the source's order: a `Vec` capacity request
above `isize::MAX` bytes for `data_ptrs` (`k` eight-byte pointers, line
111), `coding_ptrs` (`rows` pointers, line 118) or `coeffs` (`coeffs_len`
bytes, line 132); the out-of-bounds slice `&row[..k]` of a matrix row
shorter than `k` (line 134, a bounds panic in every build profile); and the
`coeffs` fill loop growing the vector past `isize::MAX` entries (its final
length is `matrix_rows.length * k`, lines 133-135).  Allocation failure for
requests within the capacity bound aborts the process through
`handle_alloc_error`; as with `alignedBuf_new_ok`, it is an environmental
capacity condition, not a value computed from the inputs, and the
allocations are modelled as succeeding.  The external `ec_init_tables_gfni`
/ `ec_encode_data_*_gfni` engine calls only write the output buffers, never
the returned flag. -/
def try_code_some_slices (matrix_rows : List (List Nat)) (inputs : List (List Nat))
    (outputs : List (List Nat)) (aligned : Bool) : Option Bool :=
  let k := inputs.length
  let rows := outputs.length
  if k = 0 || rows = 0 then some true
  else
    let len := (inputs.headD []).length
    if len = 0 then some true
    else
      if ISIZE_MAX < k * 8 then none
      else if ISIZE_MAX < rows * 8 then none
      else
        let coeffs_len := (k * rows) % USIZE_MOD
        let gftbls_len := (coeffs_len * ISA_L_TABLE_BYTES_PER_COEFF) % USIZE_MOD
        if ISIZE_MAX < coeffs_len then none
        else if matrix_rows.any fun row => decide (row.length < k) then none
        else if ISIZE_MAX < matrix_rows.length * k then none
        else if alignedBuf_new_ok gftbls_len ISA_L_ALIGN_BYTES then some true
        else some false

/-! Helper theorems. -/

theorem pt_injOn : Set.InjOn pt {n : Nat | n < 256} := by
  intro a ha b hb h
  have h2 : a % 256 = b % 256 := by
    have h3 := congrArg Fin.val ((Fintype.equivFin GFByte).symm.injective h)
    simpa using h3
  simpa [Nat.mod_eq_of_lt ha, Nat.mod_eq_of_lt hb] using h2


/-! Core mathematics of the MDS guarantee: knowing the codeword values on any
`k`-element set of valid indices determines every data shard. -/

theorem pt_injOn_range {k : Nat} (hk : k ≤ 256) :
    Set.InjOn pt ((Finset.range k : Finset Nat) : Set Nat) :=
  pt_injOn.mono fun x hx => by
    simp only [Finset.coe_range, Set.mem_Iio] at hx
    exact lt_of_lt_of_le hx hk

theorem codeword_at_data {k : Nat} (hk : k ≤ 256) (d : Nat → GFByte) {i : Nat} (hi : i < k) :
    codeword k d i = d i :=
  Lagrange.eval_interpolate_at_node d (pt_injOn_range hk) (Finset.mem_range.2 hi)

theorem recover_correct {k : Nat} (hk : k ≤ 256) (S : Finset Nat) (hcard : S.card = k)
    (hS : ∀ n ∈ S, n < 256) (d : Nat → GFByte) (rv : Nat → GFByte)
    (hr : ∀ idx ∈ S, rv idx = codeword k d idx) {i : Nat} (hi : i < k) :
    Polynomial.eval (pt i) (Lagrange.interpolate S pt rv) = d i := by
  subst hcard
  have hvS : Set.InjOn pt (S : Set Nat) := pt_injOn.mono fun x hx => hS x (by simpa using hx)
  have hdeg0 := Lagrange.degree_interpolate_lt (v := pt) d (pt_injOn_range (k := S.card) hk)
  rw [Finset.card_range] at hdeg0
  have h1 : Lagrange.interpolate S pt rv =
      Lagrange.interpolate S pt
        (fun idx => Polynomial.eval (pt idx) (Lagrange.interpolate (Finset.range S.card) pt d)) :=
    Lagrange.interpolate_eq_of_values_eq_on _ _ fun idx hidx => by
      rw [hr idx hidx, codeword]
  have h2 := (Lagrange.eq_interpolate hvS hdeg0).symm
  rw [h1, h2]
  exact Lagrange.eval_interpolate_at_node d (pt_injOn_range hk) (Finset.mem_range.2 hi)

/-- Helper: what a successful `new` says about its arguments and result. -/
theorem new_ok {k m : Nat} {r : CM256ReedSolomon} (h : new k m = .ok r) :
    1 ≤ k ∧ 1 ≤ m ∧ k + m ≤ 256 ∧ r = ⟨k, m, k + m⟩ := by
  by_cases hk : k = 0
  · rw [new, if_pos hk] at h; cases h
  · by_cases hm : m = 0
    · rw [new, if_neg hk, if_pos hm] at h; cases h
    · by_cases hs : k + m > 256
      · rw [new, if_neg hk, if_neg hm, if_pos hs] at h; cases h
      · rw [new, if_neg hk, if_neg hm, if_neg hs] at h
        cases h
        exact ⟨by omega, by omega, by omega, rfl⟩

/-- Helper: `check_all` succeeds exactly on the configured total count. -/
theorem check_all_ok (r : CM256ReedSolomon) {count : Nat}
    (h : count = r.total_shard_count) : r.check_all count = .ok () := by
  rw [CM256ReedSolomon.check_all, if_neg (by omega), if_neg (by omega)]

/-- Helper: `check_all` on too few slots. -/
theorem check_all_lt (r : CM256ReedSolomon) {count : Nat}
    (h : count < r.total_shard_count) : r.check_all count = .error .TooFewShards := by
  rw [CM256ReedSolomon.check_all, if_pos h]

/-- Helper: `check_all` on too many slots. -/
theorem check_all_gt (r : CM256ReedSolomon) {count : Nat}
    (h : r.total_shard_count < count) : r.check_all count = .error .TooManyShards := by
  rw [CM256ReedSolomon.check_all, if_neg (by omega), if_pos (by omega)]

/-- Helper: `check_slices_uniform` rejects an empty first shard. -/
theorem check_slices_uniform_empty {β : Type} (s : List β) (rest : List (List β))
    (h : s.length = 0) : check_slices_uniform (s :: rest) = .error .EmptyShard := by
  rw [check_slices_uniform]
  simp [h]

/-- Helper: `check_slices_uniform` rejects a length mismatch. -/
theorem check_slices_uniform_mismatch {β : Type} (s : List β) (rest : List (List β))
    (h0 : s.length ≠ 0) (h : ∃ t ∈ rest, t.length ≠ s.length) :
    check_slices_uniform (s :: rest) = .error .IncorrectShardSize := by
  rw [check_slices_uniform]
  obtain ⟨t, ht, hne⟩ := h
  rw [if_neg h0, if_neg]
  simp only [List.all_eq_true]
  intro hall
  exact hne (by simpa using hall t ht)

/-- Unfolding: the presence scan on an absent slot. -/
theorem scan_shards_cons_none {β : Type} (acc : Option Nat × Nat)
    (rest : List (Option (List β))) :
    scan_shards acc (none :: rest) = scan_shards acc rest := rfl

/-- Unfolding: the presence scan rejects an empty present shard. -/
theorem scan_shards_cons_empty {β : Type} (acc : Option Nat × Nat) (v : List β)
    (rest : List (Option (List β))) (h : v.length = 0) :
    scan_shards acc (some v :: rest) = .error .EmptyShard := by
  simp [scan_shards, h]

/-- Unfolding: the presence scan steps over a first present shard. -/
theorem scan_shards_cons_first {β : Type} (n : Nat) (v : List β)
    (rest : List (Option (List β))) (h : v.length ≠ 0) :
    scan_shards (none, n) (some v :: rest) = scan_shards (some v.length, n + 1) rest := by
  simp [scan_shards, h]

/-- Unfolding: the presence scan steps over a matching present shard. -/
theorem scan_shards_cons_match {β : Type} (sz n : Nat) (v : List β)
    (rest : List (Option (List β))) (h : v.length ≠ 0) (he : v.length = sz) :
    scan_shards (some sz, n) (some v :: rest) = scan_shards (some v.length, n + 1) rest := by
  have h2 : ¬ v.length ≠ sz := by omega
  simp [scan_shards, h, h2]

/-- Unfolding: the presence scan rejects a size mismatch. -/
theorem scan_shards_cons_mismatch {β : Type} (sz n : Nat) (v : List β)
    (rest : List (Option (List β))) (h : v.length ≠ 0) (he : v.length ≠ sz) :
    scan_shards (some sz, n) (some v :: rest) = .error .IncorrectShardSize := by
  simp [scan_shards, h, he]

/-- Helper: the presence scan over uniformly sized nonempty shards. -/
theorem scan_shards_uniform {β : Type} (L : Nat) (hL : L ≠ 0) :
    ∀ (shards : List (Option (List β))) (a : Option Nat) (n : Nat),
      (a = none ∨ a = some L) →
      (∀ s ∈ shards, ∀ v, s = some v → v.length = L) →
      scan_shards (a, n) shards =
        .ok (if shards.countP Option.isSome = 0 then a else some L,
          n + shards.countP Option.isSome) := by
  intro shards
  induction shards with
  | nil => intro a n _ _; simp [scan_shards]
  | cons s rest ih =>
    intro a n ha hs
    have hrest : ∀ t ∈ rest, ∀ w, t = some w → w.length = L :=
      fun t ht w hw => hs t (List.mem_cons_of_mem _ ht) w hw
    match s with
    | none =>
      rw [scan_shards_cons_none, ih a n ha hrest]
      have : (none :: rest : List (Option (List β))).countP Option.isSome =
          rest.countP Option.isSome := by simp [List.countP_cons]
      rw [this]
    | some v =>
      have hv : v.length = L := hs (some v) (List.mem_cons_self _ _) v rfl
      have hv0 : v.length ≠ 0 := by omega
      have hcnt : (some v :: rest : List (Option (List β))).countP Option.isSome =
          rest.countP Option.isSome + 1 := by simp [List.countP_cons]
      have hstep : scan_shards (a, n) (some v :: rest) =
          scan_shards (some L, n + 1) rest := by
        rcases ha with ha | ha
        · subst ha; rw [scan_shards_cons_first _ _ _ hv0, hv]
        · subst ha; rw [scan_shards_cons_match _ _ _ _ hv0 hv, hv]
      rw [hstep, ih (some L) (n + 1) (Or.inr rfl) hrest, hcnt]
      have hif : (if rest.countP Option.isSome = 0 then some L else some L) = some L := by
        split <;> rfl
      rw [hif, if_neg (by omega)]
      have : n + 1 + rest.countP Option.isSome = n + (rest.countP Option.isSome + 1) := by
        omega
      rw [this]

/-- Helper: the presence scan hits `EmptyShard` when an empty shard is
present and every other present shard is uniform. -/
theorem scan_shards_empty {β : Type} (L : Nat) :
    ∀ (shards : List (Option (List β))) (a : Option Nat) (n : Nat),
      (a = none ∨ a = some L) →
      (∀ s ∈ shards, ∀ v, s = some v → v.length = L ∨ v.length = 0) →
      (∃ s ∈ shards, s = some ([] : List β)) →
      scan_shards (a, n) shards = .error .EmptyShard := by
  intro shards
  induction shards with
  | nil => intro a n _ _ hex; simp at hex
  | cons s rest ih =>
    intro a n ha hs hex
    have hrest : ∀ t ∈ rest, ∀ w, t = some w → w.length = L ∨ w.length = 0 :=
      fun t ht w hw => hs t (List.mem_cons_of_mem _ ht) w hw
    match s with
    | none =>
      rw [scan_shards_cons_none]
      refine ih a n ha hrest ?_
      rcases hex with ⟨t, ht, rfl⟩
      exact ⟨some [], by simpa using ht, rfl⟩
    | some v =>
      by_cases hv0 : v.length = 0
      · exact scan_shards_cons_empty _ _ _ hv0
      · have hv : v.length = L := by
          rcases hs (some v) (List.mem_cons_self _ _) v rfl with h | h
          · exact h
          · exact absurd h hv0
        have hex2 : ∃ t ∈ rest, t = some ([] : List β) := by
          rcases hex with ⟨t, ht, rfl⟩
          rcases List.mem_cons.1 ht with h | h
          · exfalso
            apply hv0
            have : v = ([] : List β) := by injection h.symm
            rw [this]; rfl
          · exact ⟨some [], h, rfl⟩
        have hstep : scan_shards (a, n) (some v :: rest) =
            scan_shards (some L, n + 1) rest := by
          rcases ha with ha | ha
          · subst ha; rw [scan_shards_cons_first _ _ _ hv0, hv]
          · subst ha; rw [scan_shards_cons_match _ _ _ _ hv0 hv, hv]
        rw [hstep]
        exact ih (some L) (n + 1) (Or.inr rfl) hrest hex2

/-- Helper: the presence scan hits `IncorrectShardSize` when the running
size and the present shard lengths are not all equal (and no present shard
is empty). -/
theorem scan_shards_nonuniform {β : Type} :
    ∀ (shards : List (Option (List β))) (a : Option Nat) (n : Nat),
      (∀ s ∈ shards, ∀ v, s = some v → v.length ≠ 0) →
      (∃ x ∈ a.toList ++ (shards.filterMap id).map List.length,
        ∃ y ∈ a.toList ++ (shards.filterMap id).map List.length, x ≠ y) →
      scan_shards (a, n) shards = .error .IncorrectShardSize := by
  intro shards
  induction shards with
  | nil =>
    intro a n _ hex
    exfalso
    rcases hex with ⟨x, hx, y, hy, hxy⟩
    match a with
    | none => simp at hx
    | some sz =>
      simp at hx hy
      omega
  | cons s rest ih =>
    intro a n hs hex
    have hrest : ∀ t ∈ rest, ∀ w, t = some w → w.length ≠ 0 :=
      fun t ht w hw => hs t (List.mem_cons_of_mem _ ht) w hw
    match s with
    | none =>
      rw [scan_shards_cons_none]
      refine ih a n hrest ?_
      simpa using hex
    | some v =>
      have hv0 : v.length ≠ 0 := hs (some v) (List.mem_cons_self _ _) v rfl
      match a with
      | none =>
        rw [scan_shards_cons_first _ _ _ hv0]
        refine ih (some v.length) (n + 1) hrest ?_
        simpa using hex
      | some sz =>
        by_cases hvs : v.length = sz
        · rw [scan_shards_cons_match _ _ _ _ hv0 hvs]
          refine ih (some v.length) (n + 1) hrest ?_
          rcases hex with ⟨x, hx, y, hy, hxy⟩
          have hmem : ∀ z, (z ∈ (some sz : Option Nat).toList ++
              ((some v :: rest).filterMap id).map List.length) →
              z ∈ (some v.length : Option Nat).toList ++
                (rest.filterMap id).map List.length := by
            intro z hz
            simp only [Option.toList_some, List.cons_append, List.nil_append, List.mem_cons,
              List.filterMap_cons, id_eq, List.map_cons] at hz ⊢
            rcases hz with hz | hz | hz
            · exact Or.inl (by omega)
            · exact Or.inl hz
            · exact Or.inr hz
          exact ⟨x, hmem x hx, y, hmem y hy, hxy⟩
        · exact scan_shards_cons_mismatch _ _ _ _ hv0 hvs

/-- Helper: element-count of a predicate over a shard list, re-indexed over
positions. -/
theorem countP_eq_range_countP {β : Type} :
    ∀ (l : List (Option (List β))) (p : Option (List β) → Bool),
      l.countP p = (List.range l.length).countP fun i => p (l.getD i none) := by
  intro l
  induction l with
  | nil => intro p; simp
  | cons s rest ih =>
    intro p
    rw [List.length_cons, List.range_succ_eq_map, List.countP_cons, List.countP_cons,
      List.countP_map]
    simp only [List.getD_cons_zero, List.getD_cons_succ]
    rw [ih p]
    rfl

/-- Helper: `getD` after `set` at the written index. -/
theorem getD_set_self {α : Type} (l : List α) (j : Nat) (w d : α) (h : j < l.length) :
    (l.set j w).getD j d = w := by
  rw [List.getD_eq_getElem _ _ (by simpa using h)]
  simp

/-- Helper: `getD` after `set` at a different index. -/
theorem getD_set_ne {α : Type} (l : List α) (i j : Nat) (w d : α) (h : i ≠ j) :
    (l.set j w).getD i d = l.getD i d := by
  rw [List.getD_eq_getElem?_getD, List.getD_eq_getElem?_getD,
    List.getElem?_set_ne (Ne.symm h)]

/-- Helper: an in-bounds `getD` is a member. -/
theorem getD_mem {α : Type} (l : List α) (i : Nat) (d : α) (h : i < l.length) :
    l.getD i d ∈ l := by
  rw [List.getD_eq_getElem _ _ (by simpa using h)]
  exact List.getElem_mem _

/-- Helper: a list is recovered from its in-bounds `getD` reads. -/
theorem list_eq_of_getD {α : Type} (l1 l2 : List α) (d : α) (hlen : l1.length = l2.length)
    (h : ∀ i, i < l1.length → l1.getD i d = l2.getD i d) : l1 = l2 := by
  apply List.ext_getElem hlen
  intro i h1 h2
  have := h i h1
  rwa [List.getD_eq_getElem _ _ h1, List.getD_eq_getElem _ _ h2] at this

/-- Helper: reading a mapped range at an in-bounds position. -/
theorem getD_map_range {α : Type} (f : Nat → α) (n p : Nat) (d : α) (hp : p < n) :
    ((List.range n).map f).getD p d = f p := by
  rw [List.getD_eq_getElem _ _ (by simpa using hp)]
  simp

/-- Helper: mapping in-bounds reads over the index range recovers the list. -/
theorem map_range_getD {α : Type} (l : List α) (d : α) :
    (List.range l.length).map (fun p => l.getD p d) = l := by
  refine list_eq_of_getD _ _ d (by simp) ?_
  intro i hi
  simp only [List.length_map, List.length_range] at hi
  rw [getD_map_range _ _ _ _ hi]

/-- Helper: `find?` with an equality test finds the element itself. -/
theorem find_beq_self (l : List Nat) (i : Nat) :
    l.find? (fun x => x == i) = if i ∈ l then some i else none := by
  induction l with
  | nil => simp
  | cons x xs ih =>
    by_cases hx : x = i
    · subst hx
      rw [List.find?_cons_of_pos _ (by simp)]
      simp
    · rw [List.find?_cons_of_neg _ (by simpa using hx), ih]
      by_cases hmem : i ∈ xs <;> simp [hmem, hx, Ne.symm hx]

/-- Helper: splitting an index range at a midpoint. -/
theorem range_split (t k : Nat) (h : t ≤ k) :
    List.range k = List.range t ++ List.range' t (k - t) := by
  rw [List.range_eq_range', List.range_eq_range']
  have h2 := List.range'_append_1 0 t (k - t)
  rw [Nat.zero_add] at h2
  rw [h2]
  congr 1
  omega

/-- Helper: one step of `countP` over a growing prefix. -/
theorem countP_take_succ {α : Type} (l : List α) (p : α → Bool) (t : Nat) (d : α)
    (ht : t < l.length) :
    (l.take (t + 1)).countP p =
      (l.take t).countP p + (if p (l.getD t d) then 1 else 0) := by
  rw [List.take_succ, List.countP_append]
  rw [List.getElem?_eq_getElem ht]
  rw [List.getD_eq_getElem _ _ ht]
  simp [List.countP_cons]

/-- Helper: `next_present` is the head of the present indices in the
remaining cursor range. -/
theorem next_present_spec {β : Type} (shards : List (Option (List β))) (stop : Nat) :
    ∀ n c, c + n = stop →
      next_present shards stop c =
        ((List.range' c n).filter fun i => (shards.getD i none).isSome).head? := by
  intro n
  induction n with
  | zero =>
    intro c hc
    rw [next_present, if_neg (by omega)]
    simp
  | succ n ih =>
    intro c hc
    rw [next_present, if_pos (by omega), List.range'_succ]
    by_cases hpres : (shards.getD c none).isSome
    · rw [if_pos hpres,
        List.filter_cons_of_pos (p := fun i => (shards.getD i none).isSome) hpres]
      simp
    · rw [if_neg hpres, ih (c + 1) (by omega),
        List.filter_cons_of_neg (p := fun i => (shards.getD i none).isSome)
          (by simpa using hpres)]

/-- Helper: a successful `next_present` splits the present indices: the found
index is present, and everything before it in the cursor range is absent. -/
theorem next_present_some {β : Type} (shards : List (Option (List β))) (stop : Nat) :
    ∀ n c ri, c + n = stop →
      next_present shards stop c = some ri →
      (shards.getD ri none).isSome = true ∧ c ≤ ri ∧ ri < stop ∧
        ((List.range' c n).filter fun i => (shards.getD i none).isSome) =
          ri :: ((List.range' (ri + 1) (stop - (ri + 1))).filter
            fun i => (shards.getD i none).isSome) := by
  intro n
  induction n with
  | zero =>
    intro c ri hc h
    rw [next_present, if_neg (by omega)] at h
    cases h
  | succ n ih =>
    intro c ri hc h
    rw [next_present, if_pos (by omega)] at h
    by_cases hpres : (shards.getD c none).isSome
    · rw [if_pos hpres] at h
      have hri : ri = c := by
        cases h; rfl
      subst hri
      refine ⟨hpres, le_refl _, by omega, ?_⟩
      rw [List.range'_succ,
        List.filter_cons_of_pos (p := fun i => (shards.getD i none).isSome) hpres]
      have hn : n = stop - (ri + 1) := by omega
      rw [hn]
    · rw [if_neg hpres] at h
      obtain ⟨h1, h2, h3, h4⟩ := ih (c + 1) ri (by omega) h
      refine ⟨h1, by omega, h3, ?_⟩
      rw [List.range'_succ,
        List.filter_cons_of_neg (p := fun i => (shards.getD i none).isSome)
          (by simpa using hpres), h4]

/-- Helper: full characterization of the block-construction loop.  Writing
`pl c` for the present indices at or past the cursor, each present data
index contributes its own shard and each missing one consumes the next
entry of `pl c`; the recorded entry positions are the loop positions of the
missing indices. -/
theorem build_blocks_spec {β : Type} (shards : List (Option (List β))) (stop : Nat) :
    ∀ (is : List Nat) (c pos : Nat),
      c ≤ stop →
      (is.countP fun i => (shards.getD i none).isNone) ≤
        ((List.range' c (stop - c)).filter fun i => (shards.getD i none).isSome).length →
      ∃ bs es, build_blocks shards stop is c pos = some (bs, es) ∧
        bs.length = is.length ∧
        es = (is.enumFrom pos).filterMap (fun q =>
          if (shards.getD q.2 none).isNone then some q.1 else none) ∧
        ∀ t, t < is.length →
          ((shards.getD (is.getD t 0) none).isSome = true →
            bs.getD t default =
              ⟨(shards.getD (is.getD t 0) none).getD [], is.getD t 0⟩) ∧
          ((shards.getD (is.getD t 0) none).isNone = true →
            (((is.take t).countP fun i => (shards.getD i none).isNone) <
              ((List.range' c (stop - c)).filter fun i =>
                (shards.getD i none).isSome).length ∧
            bs.getD t default =
              ⟨(shards.getD (((List.range' c (stop - c)).filter fun i =>
                  (shards.getD i none).isSome).getD
                    ((is.take t).countP fun i => (shards.getD i none).isNone) 0) none).getD [],
                ((List.range' c (stop - c)).filter fun i =>
                  (shards.getD i none).isSome).getD
                    ((is.take t).countP fun i => (shards.getD i none).isNone) 0⟩)) := by
  intro is
  induction is with
  | nil =>
    intro c pos hc hcount
    refine ⟨[], [], rfl, rfl, by simp, ?_⟩
    intro t ht
    simp at ht
  | cons i rest ih =>
    intro c pos hc hcount
    by_cases hpres : (shards.getD i none).isSome = true
    · obtain ⟨v, hv⟩ := Option.isSome_iff_exists.1 hpres
      have hcnteq : ((i :: rest).countP fun i => (shards.getD i none).isNone) =
          rest.countP fun i => (shards.getD i none).isNone := by
        rw [List.countP_cons_of_neg (fun i => (shards.getD i none).isNone) rest (by simp only [hv]; simp)]
      obtain ⟨bs2, es2, hbuild, hlen, hes, hpt⟩ := ih c (pos + 1) hc (by omega)
      refine ⟨⟨v, i⟩ :: bs2, es2, ?_, by simp [hlen], ?_, ?_⟩
      · simp only [build_blocks, hv, hbuild, Option.map_some']
      · rw [List.enumFrom_cons, List.filterMap_cons, hes]
        rw [show (if (shards.getD i none).isNone = true then some pos else none) =
          (none : Option Nat) from by rw [hv]; rfl]
      · intro t ht
        match t with
        | 0 =>
          constructor
          · intro _
            rw [List.getD_cons_zero, List.getD_cons_zero, hv]
            rfl
          · intro hmiss
            rw [List.getD_cons_zero, hv] at hmiss
            simp at hmiss
        | u + 1 =>
          have hu : u < rest.length := by simpa using ht
          have htk : ((i :: rest).take (u + 1)).countP
              (fun i => (shards.getD i none).isNone) =
              (rest.take u).countP fun i => (shards.getD i none).isNone := by
            rw [List.take_succ_cons, List.countP_cons_of_neg (fun i => (shards.getD i none).isNone) (rest.take u) (by simp only [hv]; simp)]
          rw [List.getD_cons_succ, List.getD_cons_succ, htk]
          exact hpt u hu
    · have hv : shards.getD i none = none := by
        cases ho : shards.getD i none
        · rfl
        · rw [ho] at hpres; simp at hpres
      have hcnteq : ((i :: rest).countP fun i => (shards.getD i none).isNone) =
          (rest.countP fun i => (shards.getD i none).isNone) + 1 := by
        rw [List.countP_cons_of_pos (fun i => (shards.getD i none).isNone) rest (by simp only [hv]; simp)]
      have hplpos : 0 <
          ((List.range' c (stop - c)).filter fun i =>
            (shards.getD i none).isSome).length := by
        omega
      obtain ⟨ri, hri⟩ : ∃ ri, next_present shards stop c = some ri := by
        rw [next_present_spec shards stop (stop - c) c (by omega)]
        match hl : (List.range' c (stop - c)).filter fun i =>
            (shards.getD i none).isSome with
        | [] => rw [hl] at hplpos; simp at hplpos
        | x :: xs => exact ⟨x, rfl⟩
      obtain ⟨hripres, hcri, hristop, hsplit⟩ :=
        next_present_some shards stop (stop - c) c ri (by omega) hri
      have hlensplit : ((List.range' c (stop - c)).filter fun i =>
          (shards.getD i none).isSome).length =
          ((List.range' (ri + 1) (stop - (ri + 1))).filter fun i =>
            (shards.getD i none).isSome).length + 1 := by
        rw [hsplit, List.length_cons]
      obtain ⟨bs2, es2, hbuild, hlen, hes, hpt⟩ :=
        ih (ri + 1) (pos + 1) (by omega) (by omega)
      refine ⟨⟨(shards.getD ri none).getD [], ri⟩ :: bs2, pos :: es2, ?_,
        by simp [hlen], ?_, ?_⟩
      · simp only [build_blocks, hv, hri, hbuild, Option.map_some']
      · rw [List.enumFrom_cons, List.filterMap_cons, hes]
        rw [show (if (shards.getD i none).isNone = true then some pos else none) =
          some pos from by rw [hv]; rfl]
      · intro t ht
        match t with
        | 0 =>
          constructor
          · intro hp
            rw [List.getD_cons_zero, hv] at hp
            simp at hp
          · intro _
            refine ⟨by simpa using hplpos, ?_⟩
            rw [List.take_zero, List.countP_nil, hsplit, List.getD_cons_zero,
              List.getD_cons_zero]
        | u + 1 =>
          have hu : u < rest.length := by simpa using ht
          have htk : ((i :: rest).take (u + 1)).countP
              (fun i => (shards.getD i none).isNone) =
              ((rest.take u).countP fun i => (shards.getD i none).isNone) + 1 := by
            rw [List.take_succ_cons, List.countP_cons_of_pos (fun i => (shards.getD i none).isNone) (rest.take u) (by simp only [hv]; simp)]
          obtain ⟨hpt1, hpt2⟩ := hpt u hu
          rw [List.getD_cons_succ, List.getD_cons_succ, htk]
          constructor
          · exact hpt1
          · intro hmiss
            obtain ⟨hb1, hb2⟩ := hpt2 hmiss
            constructor
            · omega
            · rw [hsplit, List.getD_cons_succ]
              exact hb2

/-- Helper: `decode_assign` preserves the block-array length. -/
theorem decode_assign_length (ps : CM256EncoderParams) (all : List (CM256Block GFByte)) :
    ∀ (bs : List (CM256Block GFByte)) (ms : List Nat),
      (decode_assign ps all bs ms).length = bs.length := by
  intro bs
  induction bs with
  | nil => intro ms; rfl
  | cons b rest ih =>
    intro ms
    by_cases hb : b.index < ps.original_count
    · simp only [decode_assign, if_pos hb, List.length_cons, ih]
    · match ms with
      | [] => simp only [decode_assign, if_neg hb, List.length_cons, ih]
      | i :: ms2 => simp only [decode_assign, if_neg hb, List.length_cons, ih]

/-- Helper: the `t`-th output block of `decode_assign` — original blocks are
kept, recovery blocks consume the missing list in order of their rank among
the recovery blocks. -/
theorem decode_assign_getD (ps : CM256EncoderParams) (all : List (CM256Block GFByte)) :
    ∀ (bs : List (CM256Block GFByte)) (ms : List Nat) (t : Nat), t < bs.length →
      (decode_assign ps all bs ms).getD t default =
        if (bs.getD t default).index < ps.original_count then bs.getD t default
        else
          match ms.drop ((bs.take t).countP fun b =>
              decide (ps.original_count ≤ b.index)) with
          | [] => bs.getD t default
          | i :: _ => ⟨recovered_block ps all i, i⟩ := by
  intro bs
  induction bs with
  | nil => intro ms t ht; simp at ht
  | cons b rest ih =>
    intro ms t ht
    by_cases hb : b.index < ps.original_count
    · match t with
      | 0 =>
        simp only [decode_assign, if_pos hb]
        rw [List.getD_cons_zero, List.getD_cons_zero, if_pos hb]
      | u + 1 =>
        simp only [decode_assign, if_pos hb]
        rw [List.getD_cons_succ, List.getD_cons_succ,
          ih ms u (by simpa using ht), List.take_succ_cons,
          List.countP_cons_of_neg (fun b => decide (ps.original_count ≤ b.index))
            (rest.take u) (by simp; omega)]
    · match t, ms with
      | 0, [] =>
        simp only [decode_assign, if_neg hb]
        rw [List.getD_cons_zero, List.getD_cons_zero, if_neg hb,
          List.take_zero, List.countP_nil, List.drop_nil]
      | 0, i :: ms2 =>
        simp only [decode_assign, if_neg hb]
        rw [List.getD_cons_zero, List.getD_cons_zero, if_neg hb, List.take_zero,
          List.countP_nil, List.drop_zero]
      | u + 1, [] =>
        simp only [decode_assign, if_neg hb]
        rw [List.getD_cons_succ, List.getD_cons_succ,
          ih [] u (by simpa using ht), List.take_succ_cons,
          List.countP_cons_of_pos (fun b => decide (ps.original_count ≤ b.index))
            (rest.take u) (by simp; omega)]
        rw [List.drop_nil, List.drop_nil]
      | u + 1, i :: ms2 =>
        simp only [decode_assign, if_neg hb]
        rw [List.getD_cons_succ, List.getD_cons_succ,
          ih ms2 u (by simpa using ht), List.take_succ_cons,
          List.countP_cons_of_pos (fun b => decide (ps.original_count ≤ b.index))
            (rest.take u) (by simp; omega)]
        rw [List.drop_succ_cons]

/-- Helper: `apply_entries` writes each recorded block at its decoded index;
with pairwise distinct decoded indices the result reads back by `find?`. -/
theorem apply_entries_spec {β : Type} (decoded : List (CM256Block β)) :
    ∀ (entries : List Nat) (shards : List (Option (List β))),
      (∀ pos ∈ entries, (decoded.getD pos default).index < shards.length) →
      ((entries.map fun pos => (decoded.getD pos default).index).Nodup) →
      (apply_entries decoded entries shards).length = shards.length ∧
      ∀ i, (apply_entries decoded entries shards).getD i none =
        match entries.find? (fun pos => (decoded.getD pos default).index == i) with
        | some pos => some ((decoded.getD pos default).block)
        | none => shards.getD i none := by
  intro entries
  induction entries with
  | nil => intro shards _ _; exact ⟨rfl, fun i => rfl⟩
  | cons pos rest ih =>
    intro shards hidx hnodup
    have happ : apply_entries decoded (pos :: rest) shards =
        apply_entries decoded rest
          (shards.set (decoded.getD pos default).index
            (some (decoded.getD pos default).block)) := rfl
    have hlen2 : (shards.set (decoded.getD pos default).index
        (some (decoded.getD pos default).block)).length = shards.length :=
      List.length_set ..
    obtain ⟨ihl, ihv⟩ := ih
      (shards.set (decoded.getD pos default).index
        (some (decoded.getD pos default).block))
      (by
        intro q hq
        rw [hlen2]
        exact hidx q (List.mem_cons_of_mem _ hq))
      (by
        rw [List.map_cons] at hnodup
        exact hnodup.of_cons)
    constructor
    · rw [happ, ihl, hlen2]
    · intro i
      rw [happ, ihv i]
      by_cases hpe : (decoded.getD pos default).index = i
      · have hfind : rest.find?
            (fun q => (decoded.getD q default).index == i) = none := by
          rw [List.find?_eq_none]
          intro q hq
          simp only [beq_iff_eq]
          intro hcontra
          rw [List.map_cons] at hnodup
          have hni := (List.nodup_cons.1 hnodup).1
          apply hni
          rw [hpe, ← hcontra]
          exact List.mem_map_of_mem _ hq
        rw [hfind, List.find?_cons_of_pos _ (by simpa using hpe)]
        rw [← hpe]
        exact getD_set_self _ _ _ _ (hidx pos (List.mem_cons_self _ _))
      · rw [List.find?_cons_of_neg _ (by simpa using hpe)]
        match hfind : rest.find? (fun q => (decoded.getD q default).index == i) with
        | some q => rfl
        | none => exact getD_set_ne _ _ _ _ _ (Ne.symm hpe)

/-- Helper: folding writes at pairwise distinct in-bounds indices. -/
theorem foldl_set_spec {β : Type} (g : Nat → List β) :
    ∀ (ids : List Nat) (shards : List (Option (List β))),
      ids.Nodup →
      (∀ idx ∈ ids, idx < shards.length) →
      (ids.foldl (fun sh idx => sh.set idx (some (g idx))) shards).length =
          shards.length ∧
      ∀ i, (ids.foldl (fun sh idx => sh.set idx (some (g idx))) shards).getD i none =
        if i ∈ ids then some (g i) else shards.getD i none := by
  intro ids
  induction ids with
  | nil => intro shards _ _; exact ⟨rfl, fun i => by simp⟩
  | cons idx rest ih =>
    intro shards hnodup hbound
    have hlen2 : (shards.set idx (some (g idx))).length = shards.length :=
      List.length_set ..
    obtain ⟨ihl, ihv⟩ := ih (shards.set idx (some (g idx))) hnodup.of_cons
      (by
        intro q hq
        rw [hlen2]
        exact hbound q (List.mem_cons_of_mem _ hq))
    constructor
    · rw [List.foldl_cons, ihl, hlen2]
    · intro i
      rw [List.foldl_cons, ihv i]
      by_cases hmem : i ∈ rest
      · rw [if_pos hmem, if_pos (List.mem_cons_of_mem _ hmem)]
      · rw [if_neg hmem]
        by_cases hieq : i = idx
        · subst hieq
          rw [if_pos (List.mem_cons_self _ _)]
          exact getD_set_self _ _ _ _ (hbound i (List.mem_cons_self _ _))
        · rw [if_neg (by simp [hieq, hmem])]
          exact getD_set_ne _ _ _ _ _ hieq

/-- Helper: reading the index range at an in-bounds position. -/
theorem getD_range (k t : Nat) (h : t < k) : (List.range k).getD t 0 = t := by
  rw [List.getD_eq_getElem _ _ (by simpa using h)]
  simp

/-- Helper: in-bounds reads of a duplicate-free list are injective. -/
theorem nodup_getD_inj {α : Type} (l : List α) (d : α) (hn : l.Nodup) (i j : Nat)
    (hi : i < l.length) (hj : j < l.length) (h : l.getD i d = l.getD j d) : i = j := by
  rw [List.getD_eq_getElem _ _ hi, List.getD_eq_getElem _ _ hj] at h
  exact (List.Nodup.getElem_inj_iff hn).1 h

/-- Helper: filtering the positions of an enumerated index range. -/
theorem enumFrom_range_filterMap (P : Nat → Bool) :
    ∀ (n a : Nat), ((List.range' a n).enumFrom a).filterMap
        (fun q => if P q.2 then some q.1 else none) = (List.range' a n).filter P := by
  intro n
  induction n with
  | zero => intro a; rfl
  | succ n ih =>
    intro a
    rw [List.range'_succ, List.enumFrom_cons, List.filterMap_cons]
    by_cases hP : P a = true
    · rw [List.filter_cons_of_pos hP, if_pos hP, ih (a + 1)]
    · rw [List.filter_cons_of_neg (by simpa using hP), if_neg hP, ih (a + 1)]

/-- Helper: a prefix of the index range counts like the shorter range. -/
theorem countP_range_take (P : Nat → Bool) (k t : Nat) (h : t ≤ k) :
    ((List.range k).take t).countP P = (List.range t).countP P := by
  rw [List.take_range]
  congr 2
  omega

/-- Helper: one step of `countP` over a growing index range. -/
theorem countP_range_succ (P : Nat → Bool) (t : Nat) :
    (List.range (t + 1)).countP P =
      (List.range t).countP P + (if P t then 1 else 0) := by
  rw [List.range_succ, List.countP_append]
  simp [List.countP_cons]

/-- Helper: `countP` over index ranges is monotone. -/
theorem countP_range_mono (P : Nat → Bool) (a b : Nat) (h : a ≤ b) :
    (List.range a).countP P ≤ (List.range b).countP P := by
  rw [range_split a b h, List.countP_append]
  omega

/-- Helper: two prefixes with pointwise matching predicate values count
equally. -/
theorem countP_take_congr {α γ : Type} (l1 : List α) (l2 : List γ) (p : α → Bool)
    (q : γ → Bool) (d1 : α) (d2 : γ) :
    ∀ (t : Nat), t ≤ l1.length → t ≤ l2.length →
      (∀ u, u < t → p (l1.getD u d1) = q (l2.getD u d2)) →
      (l1.take t).countP p = (l2.take t).countP q := by
  intro t
  induction t with
  | zero => intro _ _ _; rfl
  | succ t ih =>
    intro h1 h2 hpt
    rw [countP_take_succ l1 p t d1 (by omega), countP_take_succ l2 q t d2 (by omega)]
    rw [ih (by omega) (by omega) (fun u hu => hpt u (by omega)), hpt t (by omega)]

/-- Helper: the decode model recovers each data byte exactly whenever the
supplied blocks are consistent evaluations of one codeword (the MDS
property instantiated). -/
theorem recovered_block_eq (ps : CM256EncoderParams)
    (blocks : List (CM256Block GFByte)) (d : Nat → Nat → GFByte)
    (hlen : blocks.length = ps.original_count)
    (hnodup : (blocks.map CM256Block.index).Nodup)
    (hbound : ∀ b ∈ blocks, b.index < 256)
    (hk : ps.original_count ≤ 256)
    (hcons : ∀ b ∈ blocks, ∀ p, p < ps.block_bytes →
      b.block.getD p 0 = codeword ps.original_count (d p) b.index)
    (i : Nat) (hi : i < ps.original_count) :
    recovered_block ps blocks i = (List.range ps.block_bytes).map fun p => d p i := by
  rw [recovered_block]
  apply List.map_congr_left
  intro p hp
  rw [List.mem_range] at hp
  have hS : ∀ n ∈ (blocks.map CM256Block.index).toFinset, n < 256 := by
    intro n hn
    rw [List.mem_toFinset] at hn
    obtain ⟨b, hb, rfl⟩ := List.mem_map.1 hn
    exact hbound b hb
  have hcard : (blocks.map CM256Block.index).toFinset.card = ps.original_count := by
    rw [List.toFinset_card_of_nodup hnodup, List.length_map, hlen]
  refine recover_correct hk _ hcard hS (d p) _ ?_ hi
  intro idx hidx
  rw [List.mem_toFinset] at hidx
  obtain ⟨b, hb, hbidx⟩ := List.mem_map.1 hidx
  obtain ⟨b2, hfind⟩ : ∃ b2, blocks.find? (fun bb => bb.index == idx) = some b2 := by
    have hfs : (blocks.find? (fun bb => bb.index == idx)).isSome := by
      rw [List.find?_isSome]
      exact ⟨b, hb, by simpa using hbidx⟩
    exact Option.isSome_iff_exists.1 hfs
  have hb2mem : b2 ∈ blocks := List.mem_of_find?_eq_some hfind
  have hb2idx : b2.index = idx := by
    have hpb := List.find?_some hfind
    simpa using hpb
  rw [hfind, Option.getD_some, ← hb2idx]
  exact hcons b2 hb2mem p hp

/-- Helper: the block construction over the full data index range,
consolidated — success, entries are exactly the missing data indices,
per-position contents, index bounds, and distinctness of the block
indices. -/
theorem build_blocks_range {β : Type} (shards : List (Option (List β))) (k total : Nat)
    (hk : k ≤ total)
    (hcount : ((List.range k).filter fun i => (shards.getD i none).isNone).length ≤
      ((List.range' k (total - k)).filter fun i => (shards.getD i none).isSome).length) :
    ∃ bs es, build_blocks shards total (List.range k) k 0 = some (bs, es) ∧
      bs.length = k ∧
      es = (List.range k).filter (fun i => (shards.getD i none).isNone) ∧
      (∀ t, t < k →
        ((shards.getD t none).isSome = true →
          bs.getD t default = ⟨(shards.getD t none).getD [], t⟩) ∧
        ((shards.getD t none).isNone = true →
          k ≤ (bs.getD t default).index ∧ (bs.getD t default).index < total ∧
          (shards.getD ((bs.getD t default).index) none).isSome = true ∧
          (bs.getD t default).block =
            (shards.getD ((bs.getD t default).index) none).getD [])) ∧
      (bs.map CM256Block.index).Nodup := by
  have hcount2 : ((List.range k).countP fun i => (shards.getD i none).isNone) ≤
      ((List.range' k (total - k)).filter fun i => (shards.getD i none).isSome).length := by
    rw [List.countP_eq_length_filter]
    exact hcount
  obtain ⟨bs, es, hbuild, hlen, hes, hpt⟩ :=
    build_blocks_spec shards total (List.range k) k 0 hk (by simpa using hcount2)
  rw [List.length_range] at hlen
  -- notation for the present-parity pool
  have hplnd : ((List.range' k (total - k)).filter fun i =>
      (shards.getD i none).isSome).Nodup :=
    List.Nodup.filter _ (List.nodup_range' _ _)
  -- positional facts in user form
  have hpt2 : ∀ t, t < k →
      ((shards.getD t none).isSome = true →
        bs.getD t default = ⟨(shards.getD t none).getD [], t⟩) ∧
      ((shards.getD t none).isNone = true →
        ((List.range t).countP fun i => (shards.getD i none).isNone) <
          ((List.range' k (total - k)).filter fun i =>
            (shards.getD i none).isSome).length ∧
        bs.getD t default =
          ⟨(shards.getD (((List.range' k (total - k)).filter fun i =>
              (shards.getD i none).isSome).getD
                ((List.range t).countP fun i => (shards.getD i none).isNone) 0) none).getD [],
            ((List.range' k (total - k)).filter fun i =>
              (shards.getD i none).isSome).getD
                ((List.range t).countP fun i => (shards.getD i none).isNone) 0⟩) := by
    intro t ht
    obtain ⟨h1, h2⟩ := hpt t (by simpa using ht)
    rw [getD_range k t ht] at h1 h2
    rw [countP_range_take _ k t (by omega)] at h2
    exact ⟨h1, h2⟩
  refine ⟨bs, es, hbuild, hlen, ?_, ?_, ?_⟩
  · -- entries are the missing data indices
    rw [hes]
    have hr0 : List.range k = List.range' 0 k := List.range_eq_range' k
    rw [hr0]
    exact enumFrom_range_filterMap (fun i => (shards.getD i none).isNone) k 0
  · -- per-position facts
    intro t ht
    obtain ⟨h1, h2⟩ := hpt2 t ht
    refine ⟨h1, ?_⟩
    intro hmiss
    obtain ⟨hrank, hbt⟩ := h2 hmiss
    set pl := (List.range' k (total - k)).filter fun i => (shards.getD i none).isSome
      with hpl
    set rnk := (List.range t).countP fun i => (shards.getD i none).isNone with hrnk
    have hmem : pl.getD rnk 0 ∈ pl := getD_mem pl rnk 0 hrank
    have hmem2 := List.mem_filter.1 hmem
    have hmemrange := List.mem_range'_1.1 hmem2.1
    rw [hbt]
    refine ⟨?_, ?_, hmem2.2, rfl⟩
    · show k ≤ pl.getD rnk 0
      omega
    · show pl.getD rnk 0 < total
      omega
  · -- distinctness of the indices
    have hfun : bs.map CM256Block.index =
        (List.range k).map fun t => (bs.getD t default).index := by
      refine list_eq_of_getD _ _ 0 (by simp [hlen]) ?_
      intro t ht
      rw [List.length_map, hlen] at ht
      rw [List.getD_eq_getElem _ _ (by simp [hlen]; omega),
        List.getD_eq_getElem _ _ (by simp; omega)]
      rw [List.getElem_map, List.getElem_map, List.getElem_range]
      congr 1
      rw [List.getD_eq_getElem _ _ (by omega)]
    rw [hfun]
    refine List.Nodup.map_on ?_ (List.nodup_range k)
    intro t1 ht1 t2 ht2 heq
    rw [List.mem_range] at ht1 ht2
    by_contra hne
    -- the two positions cannot both map to the same index
    rcases Bool.eq_false_or_eq_true (shards.getD t1 none).isSome with hp1 | hm1
    · -- t1 present
      have h1 := ((hpt2 t1 ht1).1) hp1
      rcases Bool.eq_false_or_eq_true (shards.getD t2 none).isSome with hp2 | hm2
      · -- both present: indices are the positions themselves
        have h2 := ((hpt2 t2 ht2).1) hp2
        rw [h1, h2] at heq
        simp only at heq
        omega
      · -- t1 present, t2 missing: index < k vs ≥ k
        have hm2b : (shards.getD t2 none).isNone = true := by
          cases ho : shards.getD t2 none
          · rfl
          · rw [ho] at hm2; simp at hm2
        obtain ⟨hrank2, hbt2⟩ := ((hpt2 t2 ht2).2) hm2b
        rw [h1, hbt2] at heq
        have hmem : ((List.range' k (total - k)).filter fun i =>
            (shards.getD i none).isSome).getD
              ((List.range t2).countP fun i => (shards.getD i none).isNone) 0 ∈
            (List.range' k (total - k)).filter fun i => (shards.getD i none).isSome :=
          getD_mem _ _ 0 hrank2
        have hmemrange := List.mem_range'_1.1 (List.mem_filter.1 hmem).1
        simp only at heq
        omega
    · -- t1 missing
      have hm1b : (shards.getD t1 none).isNone = true := by
        cases ho : shards.getD t1 none
        · rfl
        · rw [ho] at hm1; simp at hm1
      obtain ⟨hrank1, hbt1⟩ := ((hpt2 t1 ht1).2) hm1b
      rcases Bool.eq_false_or_eq_true (shards.getD t2 none).isSome with hp2 | hm2
      · -- t1 missing, t2 present
        have h2 := ((hpt2 t2 ht2).1) hp2
        rw [hbt1, h2] at heq
        have hmem : ((List.range' k (total - k)).filter fun i =>
            (shards.getD i none).isSome).getD
              ((List.range t1).countP fun i => (shards.getD i none).isNone) 0 ∈
            (List.range' k (total - k)).filter fun i => (shards.getD i none).isSome :=
          getD_mem _ _ 0 hrank1
        have hmemrange := List.mem_range'_1.1 (List.mem_filter.1 hmem).1
        simp only at heq
        omega
      · -- both missing: ranks must agree, contradicting strict monotonicity
        have hm2b : (shards.getD t2 none).isNone = true := by
          cases ho : shards.getD t2 none
          · rfl
          · rw [ho] at hm2; simp at hm2
        obtain ⟨hrank2, hbt2⟩ := ((hpt2 t2 ht2).2) hm2b
        rw [hbt1, hbt2] at heq
        simp only at heq
        have hrnkeq := nodup_getD_inj _ 0 hplnd _ _ hrank1 hrank2 heq
        rcases Nat.lt_or_ge t1 t2 with hlt | hge
        · have hstep : ((List.range (t1 + 1)).countP fun i =>
              (shards.getD i none).isNone) =
              ((List.range t1).countP fun i => (shards.getD i none).isNone) + 1 := by
            rw [countP_range_succ, if_pos hm1b]
          have hmono := countP_range_mono (fun i => (shards.getD i none).isNone)
            (t1 + 1) t2 (by omega)
          omega
        · have hlt2 : t2 < t1 := by omega
          have hstep : ((List.range (t2 + 1)).countP fun i =>
              (shards.getD i none).isNone) =
              ((List.range t2).countP fun i => (shards.getD i none).isNone) + 1 := by
            rw [countP_range_succ, if_pos hm2b]
          have hmono := countP_range_mono (fun i => (shards.getD i none).isNone)
            (t2 + 1) t1 (by omega)
          omega

/-- Helper: an option slot that is not `isSome` is `isNone`. -/
theorem isNone_of_not_isSome {α : Type} {o : Option α} (h : o.isSome = false) :
    o.isNone = true := by
  cases o
  · rfl
  · simp at h

/-- Helper: an `isNone` option slot is not `isSome`. -/
theorem not_isSome_of_isNone {α : Type} {o : Option α} (h : o.isNone = true) :
    ¬ (o.isSome = true) := by
  cases o
  · simp
  · simp at h

/-- Helper: the present and missing slots of a prefix partition it. -/
theorem countP_option_split {β : Type} (shards : List (Option (List β))) :
    ∀ n, (((List.range n).countP fun i => (shards.getD i none).isSome) +
      ((List.range n).countP fun i => (shards.getD i none).isNone)) = n := by
  intro n
  induction n with
  | zero => rfl
  | succ n ih =>
    rw [countP_range_succ, countP_range_succ]
    cases ho : shards.getD n none
    · rw [if_neg (by simp [ho]), if_pos (by simp [ho])]
      omega
    · rw [if_pos (by simp [ho]), if_neg (by simp [ho])]
      omega

/-- Helper: `find?` respects pointwise-equal predicates. -/
theorem find_congr {α : Type} (l : List α) (p q : α → Bool)
    (h : ∀ a ∈ l, p a = q a) : l.find? p = l.find? q := by
  induction l with
  | nil => rfl
  | cons x xs ih =>
    have hx := h x (List.mem_cons_self _ _)
    cases hp : p x
    · rw [List.find?_cons_of_neg _ (by simp [hp]),
        List.find?_cons_of_neg _ (by simp [← hx, hp])]
      exact ih fun a ha => h a (List.mem_cons_of_mem _ ha)
    · rw [List.find?_cons_of_pos _ (by simp [hp]),
        List.find?_cons_of_pos _ (by simp [← hx, hp])]

/-- Helper: the data-recovery phase of the wrapper over the modelled cm256
library, on a shard set whose present slots hold the evaluations of one
codeword family: it succeeds, fills every data slot with its codeword value,
and leaves every present slot and the whole parity area untouched. -/
theorem recover_data_model (k m L : Nat) (d : Nat → Nat → GFByte)
    (r : CM256ReedSolomon) (hdc : r.data_shard_count = k)
    (htc : r.total_shard_count = k + m)
    (hk : 1 ≤ k) (hkm : k + m ≤ 256)
    (shards : List (Option (List GFByte)))
    (hlen : shards.length = k + m)
    (hcontent : ∀ i, i < k + m → ∀ v, shards.getD i none = some v →
      v = (List.range L).map fun p => codeword k (d p) i)
    (hpresent : k ≤ (List.range (k + m)).countP fun i => (shards.getD i none).isSome) :
    ∃ out, recover_data cm256Ffi ⟨k, m, L⟩ r shards = some (.ok out) ∧
      out.length = k + m ∧
      (∀ i, (shards.getD i none).isSome = true → out.getD i none = shards.getD i none) ∧
      (∀ i, k ≤ i → out.getD i none = shards.getD i none) ∧
      (∀ i, i < k → out.getD i none =
        some ((List.range L).map fun p => codeword k (d p) i)) := by
  by_cases hdm : ((List.range k).filter fun i => (shards.getD i none).isNone).isEmpty = true
  · -- no data shard missing: the phase is the identity
    refine ⟨shards, ?_, hlen, fun i _ => rfl, fun i _ => rfl, ?_⟩
    · simp only [recover_data, hdc]
      rw [if_pos hdm]
    · have hnil : ((List.range k).filter fun i => (shards.getD i none).isNone) = [] :=
        List.isEmpty_iff.1 hdm
      intro i hi
      have hmem : ¬ ((shards.getD i none).isNone = true) := by
        intro hmiss
        have h2 : i ∈ (List.range k).filter fun i => (shards.getD i none).isNone :=
          List.mem_filter.2 ⟨List.mem_range.2 hi, hmiss⟩
        rw [hnil] at h2
        simp at h2
      obtain ⟨v, hv⟩ : ∃ v, shards.getD i none = some v := by
        cases ho : shards.getD i none
        · rw [ho] at hmem; simp at hmem
        · exact ⟨_, rfl⟩
      rw [hv, hcontent i (by omega) v hv]
  · -- some data shard is missing: the full decode path
    have hcount : ((List.range k).filter fun i => (shards.getD i none).isNone).length ≤
        ((List.range' k (k + m - k)).filter fun i => (shards.getD i none).isSome).length := by
      have hsplitcnt : ((List.range (k + m)).countP fun i => (shards.getD i none).isSome) =
          ((List.range k).countP fun i => (shards.getD i none).isSome) +
          ((List.range' k (k + m - k)).countP fun i => (shards.getD i none).isSome) := by
        rw [range_split k (k + m) (by omega), List.countP_append]
      have hdata_split := countP_option_split shards k
      rw [← List.countP_eq_length_filter, ← List.countP_eq_length_filter]
      omega
    obtain ⟨bs, es, hbuild, hbslen, hes, hpos, hnodup⟩ :=
      build_blocks_range shards k (k + m) (by omega) hcount
    have hbound : ∀ t, t < k → (bs.getD t default).index < k + m := by
      intro t ht
      rcases Bool.eq_false_or_eq_true (shards.getD t none).isSome with hp | hm
      · rw [(hpos t ht).1 hp]
        show t < k + m
        omega
      · obtain ⟨_, h2, _, _⟩ := (hpos t ht).2 (isNone_of_not_isSome hm)
        omega
    have hguard : bs.length = k ∧ (bs.map CM256Block.index).Nodup ∧
        ∀ i ∈ bs.map CM256Block.index, i < k + m := by
      refine ⟨hbslen, hnodup, ?_⟩
      intro i hi
      obtain ⟨b, hb, hbi⟩ := List.mem_map.1 hi
      obtain ⟨t, htlt, hbt⟩ := List.mem_iff_getElem.1 hb
      rw [← hbi, ← hbt]
      have h2 : bs[t] = bs.getD t default := (List.getD_eq_getElem bs default htlt).symm
      rw [h2]
      exact hbound t (by omega)
    have hdecode : cm256_decode ⟨k, m, L⟩ bs = some (decode_assign ⟨k, m, L⟩ bs bs
        ((List.range k).filter fun i => decide (i ∉ bs.map CM256Block.index))) := by
      simp only [cm256_decode]
      rw [if_pos hguard]
    -- a data index appears among the block indices exactly when it is present
    have hmem_idx : ∀ i, i < k →
        (i ∈ bs.map CM256Block.index ↔ (shards.getD i none).isSome = true) := by
      intro i hi
      constructor
      · intro hmem
        obtain ⟨b, hb, hbi⟩ := List.mem_map.1 hmem
        obtain ⟨t, htlt, hbt⟩ := List.mem_iff_getElem.1 hb
        have htk : t < k := by omega
        have hbgd : bs.getD t default = b := by
          rw [List.getD_eq_getElem _ _ htlt, hbt]
        rcases Bool.eq_false_or_eq_true (shards.getD t none).isSome with hp | hm
        · have h1 := (hpos t htk).1 hp
          rw [hbgd] at h1
          have hit : i = t := by rw [← hbi, h1]
          rw [hit]
          exact hp
        · obtain ⟨h1, _, _, _⟩ := (hpos t htk).2 (isNone_of_not_isSome hm)
          rw [hbgd, hbi] at h1
          omega
      · intro hp
        have h1 := (hpos i hi).1 hp
        have hgd : bs.getD i default ∈ bs := getD_mem bs i default (by omega)
        rw [h1] at hgd
        exact List.mem_map_of_mem _ hgd
    have hms : ((List.range k).filter fun i => decide (i ∉ bs.map CM256Block.index)) =
        (List.range k).filter fun i => (shards.getD i none).isNone := by
      apply List.filter_congr
      intro i hi
      rw [List.mem_range] at hi
      rcases Bool.eq_false_or_eq_true (shards.getD i none).isSome with hp | hm
      · rw [decide_eq_false (not_not_intro ((hmem_idx i hi).2 hp))]
        cases ho : shards.getD i none
        · rw [ho] at hp; simp at hp
        · rfl
      · have hnmem : i ∉ bs.map CM256Block.index := fun hcontra => by
          have h2 := (hmem_idx i hi).1 hcontra
          rw [hm] at h2
          simp at h2
        rw [decide_eq_true hnmem, isNone_of_not_isSome hm]
    -- consistency of the supplied blocks with the codeword family
    have hcontent2 : ∀ i, i < k + m → (shards.getD i none).isSome = true → ∀ p, p < L →
        ((shards.getD i none).getD []).getD p 0 = codeword k (d p) i := by
      intro i hi hp p hpL
      obtain ⟨v, hv⟩ := Option.isSome_iff_exists.1 hp
      rw [hv, Option.getD_some, hcontent i hi v hv, getD_map_range _ _ _ _ hpL]
    have hcons : ∀ b ∈ bs, ∀ p, p < L →
        b.block.getD p 0 = codeword k (d p) b.index := by
      intro b hb p hpL
      obtain ⟨t, htlt, hbt⟩ := List.mem_iff_getElem.1 hb
      have htk : t < k := by omega
      have hbgd : bs.getD t default = b := by
        rw [List.getD_eq_getElem _ _ htlt, hbt]
      rcases Bool.eq_false_or_eq_true (shards.getD t none).isSome with hp1 | hm1
      · have h1 := (hpos t htk).1 hp1
        rw [hbgd] at h1
        rw [h1]
        exact hcontent2 t (by omega) hp1 p hpL
      · obtain ⟨hge, hlt2, hps, hblk⟩ := (hpos t htk).2 (isNone_of_not_isSome hm1)
        rw [hbgd] at hge hlt2 hps hblk
        rw [hblk]
        exact hcontent2 b.index hlt2 hps p hpL
    have hbound256 : ∀ b ∈ bs, b.index < 256 := by
      intro b hb
      obtain ⟨t, htlt, hbt⟩ := List.mem_iff_getElem.1 hb
      have h2 : (bs.getD t default).index < k + m := hbound t (by omega)
      rw [List.getD_eq_getElem _ _ htlt, hbt] at h2
      omega
    have hrec : ∀ i, i < k → recovered_block ⟨k, m, L⟩ bs i =
        (List.range L).map fun p => codeword k (d p) i := by
      intro i hi
      have h1 := recovered_block_eq ⟨k, m, L⟩ bs d hbslen hnodup hbound256
        (show k ≤ 256 by omega) hcons i hi
      rw [h1]
      apply List.map_congr_left
      intro p hp
      rw [List.mem_range] at hp
      exact (codeword_at_data (by omega) (d p) hi).symm
    -- the decoded block array, position by position
    have hdec_pt : ∀ t, t < k →
        (decode_assign ⟨k, m, L⟩ bs bs
          ((List.range k).filter fun i => (shards.getD i none).isNone)).getD t default =
        (if (shards.getD t none).isSome = true then bs.getD t default
         else ⟨recovered_block ⟨k, m, L⟩ bs t, t⟩) := by
      intro t ht
      rw [decode_assign_getD ⟨k, m, L⟩ bs bs _ t (by omega)]
      rcases Bool.eq_false_or_eq_true (shards.getD t none).isSome with hp | hm
      · have h1 := (hpos t ht).1 hp
        have hcond : (bs.getD t default).index <
            (⟨k, m, L⟩ : CM256EncoderParams).original_count := by
          rw [h1]
          exact ht
        rw [if_pos hcond, if_pos hp]
      · have hmb := isNone_of_not_isSome hm
        obtain ⟨hge, hlt2, hps, hblk⟩ := (hpos t ht).2 hmb
        have hcond : ¬ ((bs.getD t default).index <
            (⟨k, m, L⟩ : CM256EncoderParams).original_count) := by
          show ¬ ((bs.getD t default).index < k)
          omega
        rw [if_neg hcond, if_neg (not_isSome_of_isNone hmb)]
        have hptw : ∀ u, u < t →
            (decide ((⟨k, m, L⟩ : CM256EncoderParams).original_count ≤
              (bs.getD u default).index)) =
            (shards.getD ((List.range k).getD u 0) none).isNone := by
          intro u hu
          rw [getD_range k u (by omega)]
          rcases Bool.eq_false_or_eq_true (shards.getD u none).isSome with hpu | hmu
          · have hidx : (bs.getD u default).index = u := by
              rw [(hpos u (by omega)).1 hpu]
            rw [hidx, decide_eq_false (by show ¬ (k ≤ u); omega)]
            cases ho : shards.getD u none
            · rw [ho] at hpu; simp at hpu
            · rfl
          · have hmbu := isNone_of_not_isSome hmu
            obtain ⟨hgeu, _, _, _⟩ := (hpos u (by omega)).2 hmbu
            rw [decide_eq_true (show (⟨k, m, L⟩ : CM256EncoderParams).original_count ≤
                (bs.getD u default).index from hgeu), hmbu]
        have hrank := countP_take_congr bs (List.range k)
          (fun b => decide ((⟨k, m, L⟩ : CM256EncoderParams).original_count ≤ b.index))
          (fun i => (shards.getD i none).isNone) default 0 t (by omega) (by simp; omega)
          hptw
        rw [countP_range_take _ k t (by omega)] at hrank
        have hdrop : (((List.range k).filter fun i => (shards.getD i none).isNone).drop
            ((List.range t).countP fun i => (shards.getD i none).isNone)) =
            t :: ((List.range' (t + 1) (k - t - 1)).filter fun i =>
              (shards.getD i none).isNone) := by
          rw [range_split t k (by omega), List.filter_append]
          have hlen1 : ((List.range t).countP fun i => (shards.getD i none).isNone) =
              ((List.range t).filter fun i => (shards.getD i none).isNone).length :=
            List.countP_eq_length_filter _ _
          rw [hlen1, List.drop_left]
          have hsucc : List.range' t (k - t) = t :: List.range' (t + 1) (k - t - 1) := by
            obtain ⟨c, hc⟩ : ∃ c, k - t = c + 1 := ⟨k - t - 1, by omega⟩
            rw [hc, List.range'_succ]
            simp
          rw [hsucc, List.filter_cons_of_pos (p := fun i => (shards.getD i none).isNone) hmb]
        rw [hrank, hdrop]
    -- positional facts feed the write-back loop
    have hdm_mem : ∀ pos ∈ (List.range k).filter fun i => (shards.getD i none).isNone,
        pos < k ∧ (shards.getD pos none).isNone = true := by
      intro pos hpos2
      have h2 := List.mem_filter.1 hpos2
      exact ⟨List.mem_range.1 h2.1, h2.2⟩
    have hdec_at_missing : ∀ pos, pos < k → (shards.getD pos none).isNone = true →
        (decode_assign ⟨k, m, L⟩ bs bs
          ((List.range k).filter fun i => (shards.getD i none).isNone)).getD pos default =
        ⟨recovered_block ⟨k, m, L⟩ bs pos, pos⟩ := by
      intro pos hp hmiss
      rw [hdec_pt pos hp, if_neg (not_isSome_of_isNone hmiss)]
    have hidx_ae : ∀ pos ∈ (List.range k).filter fun i => (shards.getD i none).isNone,
        ((decode_assign ⟨k, m, L⟩ bs bs
          ((List.range k).filter fun i => (shards.getD i none).isNone)).getD pos
            default).index < shards.length := by
      intro pos hpos2
      obtain ⟨h3, h4⟩ := hdm_mem pos hpos2
      rw [hdec_at_missing pos h3 h4]
      show pos < shards.length
      omega
    have hnodup_ae : (((List.range k).filter fun i => (shards.getD i none).isNone).map
        fun pos => ((decode_assign ⟨k, m, L⟩ bs bs
          ((List.range k).filter fun i => (shards.getD i none).isNone)).getD pos
            default).index).Nodup := by
      have h2 : ∀ pos ∈ (List.range k).filter fun i => (shards.getD i none).isNone,
          ((decode_assign ⟨k, m, L⟩ bs bs
            ((List.range k).filter fun i => (shards.getD i none).isNone)).getD pos
              default).index = pos := by
        intro pos hpos2
        obtain ⟨h3, h4⟩ := hdm_mem pos hpos2
        rw [hdec_at_missing pos h3 h4]
      rw [List.map_congr_left h2]
      have h3 : (((List.range k).filter fun i => (shards.getD i none).isNone).map
          fun pos => pos) = (List.range k).filter fun i => (shards.getD i none).isNone := by
        simp
      rw [h3]
      exact List.Nodup.filter _ (List.nodup_range k)
    obtain ⟨hlen_ae, hgetd_ae⟩ := apply_entries_spec
      (decode_assign ⟨k, m, L⟩ bs bs
        ((List.range k).filter fun i => (shards.getD i none).isNone))
      ((List.range k).filter fun i => (shards.getD i none).isNone) shards hidx_ae hnodup_ae
    have hfind_eq : ∀ i, (((List.range k).filter fun j =>
        (shards.getD j none).isNone).find?
        (fun pos => ((decode_assign ⟨k, m, L⟩ bs bs
          ((List.range k).filter fun i => (shards.getD i none).isNone)).getD pos
            default).index == i)) =
        if i ∈ (List.range k).filter fun j => (shards.getD j none).isNone then some i
        else none := by
      intro i
      have hc := find_congr ((List.range k).filter fun j => (shards.getD j none).isNone)
        (fun pos => ((decode_assign ⟨k, m, L⟩ bs bs
          ((List.range k).filter fun i => (shards.getD i none).isNone)).getD pos
            default).index == i)
        (fun pos => pos == i) (by
          intro pos hpos2
          obtain ⟨h3, h4⟩ := hdm_mem pos hpos2
          simp only []
          rw [hdec_at_missing pos h3 h4])
      rw [hc, find_beq_self]
    -- the phase equation
    have hstep : recover_data cm256Ffi ⟨k, m, L⟩ r shards =
        some (.ok (apply_entries
          (decode_assign ⟨k, m, L⟩ bs bs
            ((List.range k).filter fun i => (shards.getD i none).isNone))
          ((List.range k).filter fun i => (shards.getD i none).isNone) shards)) := by
      simp only [recover_data, hdc, htc]
      rw [if_neg hdm, hbuild]
      simp only [cm256Ffi]
      rw [hdecode, hms, hes]
    refine ⟨_, hstep, by rw [hlen_ae, hlen], ?_, ?_, ?_⟩
    · -- present slots are untouched
      intro i hp
      rw [hgetd_ae i, hfind_eq i, if_neg (fun hmem =>
        (not_isSome_of_isNone (hdm_mem i hmem).2) hp)]
    · -- the parity area is untouched
      intro i hi
      rw [hgetd_ae i, hfind_eq i, if_neg (fun hmem => by
        have h2 := (hdm_mem i hmem).1
        omega)]
    · -- every data slot holds its codeword value
      intro i hi
      rcases Bool.eq_false_or_eq_true (shards.getD i none).isSome with hp | hm
      · rw [hgetd_ae i, hfind_eq i, if_neg (fun hmem =>
          (not_isSome_of_isNone (hdm_mem i hmem).2) hp)]
        obtain ⟨v, hv⟩ := Option.isSome_iff_exists.1 hp
        rw [hv, hcontent i (by omega) v hv]
      · have hmiss := isNone_of_not_isSome hm
        have hmem : i ∈ (List.range k).filter fun j => (shards.getD j none).isNone :=
          List.mem_filter.2 ⟨List.mem_range.2 hi, hmiss⟩
        rw [hgetd_ae i, hfind_eq i, if_pos hmem]
        show some (((decode_assign ⟨k, m, L⟩ bs bs
          ((List.range k).filter fun i => (shards.getD i none).isNone)).getD i
            default).block) =
          some ((List.range L).map fun p => codeword k (d p) i)
        rw [hdec_at_missing i hi hmiss, hrec i hi]

/-- Helper: `getD` beyond the end of the list yields the default. -/
theorem getD_len_le {α : Type} (l : List α) (i : Nat) (d : α) (h : l.length ≤ i) :
    l.getD i d = d := by
  rw [List.getD_eq_getElem?_getD, List.getElem?_eq_none h]
  rfl

/-- Helper: the codeword at any index depends only on the data values below
`k`. -/
theorem codeword_congr (k : Nat) (d1 d2 : Nat → GFByte)
    (h : ∀ i, i < k → d1 i = d2 i) (idx : Nat) :
    codeword k d1 idx = codeword k d2 idx := by
  rw [codeword, codeword,
    Lagrange.interpolate_eq_of_values_eq_on _ _ fun i hi => h i (Finset.mem_range.1 hi)]

/-- Helper: the parity-recomputation phase over the modelled cm256 library,
on a shard set whose data area is complete and codeword-consistent: it
succeeds, leaves every present slot untouched, and fills every parity hole
with its codeword row. -/
theorem recompute_parity_model (k m L : Nat) (d : Nat → Nat → GFByte)
    (r : CM256ReedSolomon) (hdc : r.data_shard_count = k)
    (htc : r.total_shard_count = k + m) (hkm : k + m ≤ 256)
    (shards1 : List (Option (List GFByte)))
    (hlen : shards1.length = k + m)
    (hdata : ∀ i, i < k → shards1.getD i none =
      some ((List.range L).map fun p => codeword k (d p) i))
    (hpar : ∀ i, k ≤ i → i < k + m → ∀ v, shards1.getD i none = some v →
      v = (List.range L).map fun p => codeword k (d p) i) :
    ∃ out, recompute_parity cm256Ffi ⟨k, m, L⟩ r shards1 = some out ∧
      out.length = k + m ∧
      (∀ i, (shards1.getD i none).isSome = true →
        out.getD i none = shards1.getD i none) ∧
      (∀ i, i < k + m → out.getD i none =
        some ((List.range L).map fun p => codeword k (d p) i)) := by
  by_cases hpm : ((List.range' k (k + m - k)).filter fun i =>
      (shards1.getD i none).isNone).isEmpty = true
  · -- no parity hole: the phase is the identity
    refine ⟨shards1, ?_, hlen, fun i _ => rfl, ?_⟩
    · simp only [recompute_parity, hdc, htc]
      rw [if_pos hpm]
    · have hnil : ((List.range' k (k + m - k)).filter fun i =>
          (shards1.getD i none).isNone) = [] := List.isEmpty_iff.1 hpm
      intro i hi
      by_cases hik : i < k
      · exact hdata i hik
      · have hmemr : i ∈ List.range' k (k + m - k) :=
          List.mem_range'_1.2 ⟨by omega, by omega⟩
        have hnm : ¬ ((shards1.getD i none).isNone = true) := by
          intro hmiss
          have h2 : i ∈ (List.range' k (k + m - k)).filter fun i =>
              (shards1.getD i none).isNone := List.mem_filter.2 ⟨hmemr, hmiss⟩
          rw [hnil] at h2
          simp at h2
        obtain ⟨v, hv⟩ : ∃ v, shards1.getD i none = some v := by
          cases ho : shards1.getD i none
          · rw [ho] at hnm; simp at hnm
          · exact ⟨_, rfl⟩
        rw [hv, hpar i (by omega) hi v hv]
  · -- recompute exactly the missing parity rows
    have hguard2 : ((List.range k).all fun i => (shards1.getD i none).isSome) = true := by
      rw [List.all_eq_true]
      intro i hi2
      rw [hdata i (List.mem_range.1 hi2)]
      rfl
    have henc_val : ∀ idx, cm256_encode_block ⟨k, m, L⟩
        ((List.range k).map fun i =>
          (⟨(shards1.getD i none).getD [], i⟩ : CM256Block GFByte)) idx =
        (List.range L).map fun p => codeword k (d p) idx := by
      intro idx
      rw [cm256_encode_block]
      apply List.map_congr_left
      intro p hp
      rw [List.mem_range] at hp
      apply codeword_congr
      intro i hi
      have hblocks : ((((List.range k).map fun i =>
          (⟨(shards1.getD i none).getD [], i⟩ : CM256Block GFByte))).getD i default) =
          ⟨(shards1.getD i none).getD [], i⟩ := getD_map_range _ _ _ _ hi
      rw [hblocks]
      show ((shards1.getD i none).getD []).getD p 0 = d p i
      rw [hdata i hi, Option.getD_some, getD_map_range _ _ _ _ hp]
      exact codeword_at_data (by omega) (d p) hi
    have hstep : recompute_parity cm256Ffi ⟨k, m, L⟩ r shards1 =
        some (((List.range' k (k + m - k)).filter fun i =>
            (shards1.getD i none).isNone).foldl
          (fun sh idx => sh.set idx (some (cm256_encode_block ⟨k, m, L⟩
            ((List.range k).map fun i =>
              (⟨(shards1.getD i none).getD [], i⟩ : CM256Block GFByte))
            (k + (idx - k))))) shards1) := by
      simp only [recompute_parity, hdc, htc, cm256Ffi]
      rw [if_neg hpm, if_pos hguard2]
    have hnd : ((List.range' k (k + m - k)).filter fun i =>
        (shards1.getD i none).isNone).Nodup :=
      List.Nodup.filter _ (List.nodup_range' _ _)
    have hbd : ∀ idx ∈ (List.range' k (k + m - k)).filter fun i =>
        (shards1.getD i none).isNone, idx < shards1.length := by
      intro idx hidx
      have h2 := List.mem_range'_1.1 (List.mem_filter.1 hidx).1
      omega
    obtain ⟨hfl, hfv⟩ := foldl_set_spec
      (fun idx => cm256_encode_block ⟨k, m, L⟩
        ((List.range k).map fun i =>
          (⟨(shards1.getD i none).getD [], i⟩ : CM256Block GFByte)) (k + (idx - k)))
      ((List.range' k (k + m - k)).filter fun i => (shards1.getD i none).isNone)
      shards1 hnd hbd
    refine ⟨_, hstep, by rw [hfl, hlen], ?_, ?_⟩
    · intro i hp
      rw [hfv i, if_neg (fun hmem => by
        have h2 := (List.mem_filter.1 hmem).2
        exact (not_isSome_of_isNone h2) hp)]
    · intro i hi
      by_cases hik : i < k
      · rw [hfv i, if_neg (fun hmem => by
          have h2 := List.mem_range'_1.1 (List.mem_filter.1 hmem).1
          omega)]
        exact hdata i hik
      · by_cases hmem : i ∈ (List.range' k (k + m - k)).filter fun i =>
            (shards1.getD i none).isNone
        · rw [hfv i, if_pos hmem]
          have h2 : k + (i - k) = i := by omega
          rw [h2, henc_val i]
        · rw [hfv i, if_neg hmem]
          have hmemr : i ∈ List.range' k (k + m - k) :=
            List.mem_range'_1.2 ⟨by omega, by omega⟩
          have hnm : ¬ ((shards1.getD i none).isNone = true) := by
            intro hmiss
            exact hmem (List.mem_filter.2 ⟨hmemr, hmiss⟩)
          obtain ⟨v, hv⟩ : ∃ v, shards1.getD i none = some v := by
            cases ho : shards1.getD i none
            · rw [ho] at hnm; simp at hnm
            · exact ⟨_, rfl⟩
          rw [hv, hpar i (by omega) hi v hv]

/-- Helper: full reconstruction over the modelled cm256 library on a partial
codeword shard set with at least `k` present slots: it succeeds, leaves every
present slot untouched, and every slot of the output holds its codeword
row. -/
theorem reconstruct_model (k m L : Nat) (d : Nat → Nat → GFByte)
    (r : CM256ReedSolomon) (hdc : r.data_shard_count = k)
    (hpc : r.parity_shard_count = m) (htc : r.total_shard_count = k + m)
    (hk : 1 ≤ k) (hkm : k + m ≤ 256) (hL : 1 ≤ L)
    (shards : List (Option (List GFByte)))
    (hlen : shards.length = k + m)
    (hcontent : ∀ i, i < k + m → ∀ v, shards.getD i none = some v →
      v = (List.range L).map fun p => codeword k (d p) i)
    (hpresent : k ≤ (List.range (k + m)).countP fun i => (shards.getD i none).isSome) :
    ∃ out, reconstruct cm256Ffi r shards = some (.ok out) ∧
      out.length = k + m ∧
      (∀ i, (shards.getD i none).isSome = true →
        out.getD i none = shards.getD i none) ∧
      (∀ i, i < k + m → out.getD i none =
        some ((List.range L).map fun p => codeword k (d p) i)) := by
  have hsz : ∀ s ∈ shards, ∀ v, s = some v → v.length = L := by
    intro s hs v hv
    obtain ⟨i, hilt, hgi⟩ := List.mem_iff_getElem.1 hs
    have hgd : shards.getD i none = some v := by
      rw [List.getD_eq_getElem _ _ hilt, hgi, hv]
    rw [hcontent i (by omega) v hgd]
    simp
  have hscan := scan_shards_uniform L (by omega) shards none 0 (Or.inl rfl) hsz
  have hcnt : shards.countP Option.isSome =
      (List.range (k + m)).countP fun i => (shards.getD i none).isSome := by
    rw [countP_eq_range_countP shards Option.isSome, hlen]
  by_cases hall : shards.countP Option.isSome = k + m
  · -- every slot present: the call is the no-op early return
    refine ⟨shards, ?_, hlen, fun i _ => rfl, ?_⟩
    · rw [reconstruct, reconstruct_internal, check_all_ok r (by omega), hscan]
      simp [hall, htc]
    · intro i hi
      have hs := List.countP_eq_length.1 (by rw [hall, hlen]) (shards.getD i none)
        (getD_mem shards i none (by omega))
      obtain ⟨v, hv⟩ := Option.isSome_iff_exists.1 hs
      rw [hv, hcontent i hi v hv]
  · -- the recovery path
    have hparams : r.params L = ⟨k, m, L⟩ := by
      rw [CM256ReedSolomon.params, hdc, hpc]
    have hne : ¬ (0 + shards.countP Option.isSome = r.total_shard_count) := by omega
    have hnlt : ¬ (shards.countP Option.isSome < r.data_shard_count) := by omega
    have hcnt0 : ¬ (shards.countP Option.isSome = 0) := by omega
    obtain ⟨out1, hA1, hA2, hA3, hA4, hA5⟩ := recover_data_model k m L d r hdc htc hk
      hkm shards hlen hcontent hpresent
    obtain ⟨out2, hB1, hB2, hB3, hB4⟩ := recompute_parity_model k m L d r hdc htc hkm
      out1 hA2 hA5 (by
        intro i hge hi v hv
        rw [hA4 i hge] at hv
        exact hcontent i hi v hv)
    refine ⟨out2, ?_, hB2, ?_, hB4⟩
    · rw [reconstruct, reconstruct_internal, check_all_ok r (by omega), hscan,
        if_neg hcnt0]
      simp only []
      rw [if_neg hne, if_neg (by omega), hparams, hA1]
      simp only []
      rw [if_neg Bool.false_ne_true, hB1]
    · intro i hp
      have hi : i < k + m := by
        by_contra hcon
        rw [getD_len_le shards i none (by omega)] at hp
        simp at hp
      obtain ⟨v, hv⟩ := Option.isSome_iff_exists.1 hp
      rw [hB4 i hi, hv, hcontent i hi v hv]

/-- C9: the SIMD-codec minimum-shard-count threshold equals the parsed value
of the `RSE_ISA_L_MIN_SHARDS` environment variable when one is set and
parseable, and the default 16 otherwise. -/
theorem C9_min_shards_threshold :
    isal_min_shards none = 16 ∧
    (∀ s v, parse_usize s = some v → isal_min_shards (some s) = v) ∧
    (∀ s, parse_usize s = none → isal_min_shards (some s) = 16) := by
  refine ⟨rfl, fun s v h => ?_, fun s h => ?_⟩
  · simp [isal_min_shards, h]
  · simp [isal_min_shards, h, ISA_L_MIN_SHARDS_DEFAULT]

/-- Witness for C9: a parseable setting, an unparseable one, and no setting. -/
theorem C9_min_shards_threshold_witness :
    isal_min_shards (some "32") = 32 ∧
    isal_min_shards (some "abc") = 16 ∧
    isal_min_shards none = 16 :=
  ⟨C9_min_shards_threshold.2.1 "32" 32 (by decide),
   C9_min_shards_threshold.2.2 "abc" (by decide),
   C9_min_shards_threshold.1⟩

/-- Helper: the aligned-buffer layout check at alignment 32. -/
theorem alignedBuf_new_ok_32 (size : Nat) :
    alignedBuf_new_ok size 32 = decide (size ≤ 2 ^ 63 - 32) := by
  have h1 : ((32 : Nat) != 0) = true := by decide
  have h2 : (Nat.land 32 31 == 0) = true := by decide
  simp only [alignedBuf_new_ok, layout_from_size_align_ok, h1, h2, Bool.true_and]
  rw [show (2 ^ 63 - 1 - (32 - 1) : Nat) = 2 ^ 63 - 32 by norm_num]

/-- C8 counterexample: with `2 ^ 59 + 1` input shards of length 1, one
output row, and one matrix row of exactly `2 ^ 59 + 1` coefficients,
`k * rows * 32` overflows the 64-bit size type; every deterministic panic
check passes (the matrix row has exactly `k` entries and every vector
capacity request stays at most `isize::MAX` bytes), and
`try_code_some_slices` proceeds on the wrapped table size and returns
`true` rather than `false`. -/
theorem C8_overflow_counterexample :
    2 ^ 64 ≤ ([(0 : Nat)] :: List.replicate (2 ^ 59) [(0 : Nat)]).length *
        [[(0 : Nat)]].length * 32 ∧
    try_code_some_slices [List.replicate (2 ^ 59 + 1) (0 : Nat)]
      ([(0 : Nat)] :: List.replicate (2 ^ 59) [(0 : Nat)]) [[(0 : Nat)]] true =
      some true := by
  constructor
  · rw [List.length_cons, List.length_replicate]
    norm_num
  · simp only [try_code_some_slices]
    rw [List.length_cons, List.length_replicate, List.headD_cons]
    rw [List.any_cons, List.any_nil, List.length_replicate]
    rw [show ISA_L_ALIGN_BYTES = 32 from rfl, alignedBuf_new_ok_32,
      show ISA_L_TABLE_BYTES_PER_COEFF = 32 from rfl,
      show USIZE_MOD = 2 ^ 64 from rfl, show ISIZE_MAX = 2 ^ 63 - 1 from rfl]
    norm_num

/-- C8 amended: in release builds the overflow `debug_assert!` checks are
compiled out, so `try_code_some_slices` never detects a `k * rows * 32`
overflow and never returns `false` because of one: an overflowing call
panics or aborts on a capacity violation when one applies, and otherwise
proceeds on the wrapped table size.  The only `false` return is the
aligned-layout validation failure of the wrapped size (allocations within
the capacity bound modelled as succeeding). -/
theorem C8_safe_abort_iff_layout_failure (matrix_rows inputs outputs : List (List Nat))
    (aligned : Bool) :
    try_code_some_slices matrix_rows inputs outputs aligned = some false ↔
      (inputs.length ≠ 0 ∧ outputs.length ≠ 0 ∧ (inputs.headD []).length ≠ 0 ∧
        inputs.length * 8 ≤ 2 ^ 63 - 1 ∧ outputs.length * 8 ≤ 2 ^ 63 - 1 ∧
        inputs.length * outputs.length % 2 ^ 64 ≤ 2 ^ 63 - 1 ∧
        (∀ row ∈ matrix_rows, inputs.length ≤ row.length) ∧
        matrix_rows.length * inputs.length ≤ 2 ^ 63 - 1 ∧
        2 ^ 63 - 32 < inputs.length * outputs.length % 2 ^ 64 * 32 % 2 ^ 64) := by
  simp only [try_code_some_slices]
  rw [show ISA_L_ALIGN_BYTES = 32 from rfl, alignedBuf_new_ok_32,
    show ISA_L_TABLE_BYTES_PER_COEFF = 32 from rfl,
    show USIZE_MOD = 2 ^ 64 from rfl, show ISIZE_MAX = 2 ^ 63 - 1 from rfl]
  constructor
  · intro h
    by_cases hc1 : (decide (inputs.length = 0) || decide (outputs.length = 0)) = true
    · rw [if_pos hc1] at h
      simp at h
    · rw [if_neg hc1] at h
      by_cases hc2 : (inputs.headD []).length = 0
      · rw [if_pos hc2] at h
        simp at h
      · rw [if_neg hc2] at h
        by_cases hc3 : 2 ^ 63 - 1 < inputs.length * 8
        · rw [if_pos hc3] at h
          simp at h
        · rw [if_neg hc3] at h
          by_cases hc4 : 2 ^ 63 - 1 < outputs.length * 8
          · rw [if_pos hc4] at h
            simp at h
          · rw [if_neg hc4] at h
            by_cases hc5 : 2 ^ 63 - 1 < inputs.length * outputs.length % 2 ^ 64
            · rw [if_pos hc5] at h
              simp at h
            · rw [if_neg hc5] at h
              by_cases hc6 : (matrix_rows.any fun row =>
                  decide (row.length < inputs.length)) = true
              · rw [if_pos hc6] at h
                simp at h
              · rw [if_neg hc6] at h
                by_cases hc7 : 2 ^ 63 - 1 < matrix_rows.length * inputs.length
                · rw [if_pos hc7] at h
                  simp at h
                · rw [if_neg hc7] at h
                  by_cases hc8 : decide (inputs.length * outputs.length % 2 ^ 64 * 32 %
                      2 ^ 64 ≤ 2 ^ 63 - 32) = true
                  · rw [if_pos hc8] at h
                    simp at h
                  · simp only [Bool.or_eq_true, decide_eq_true_eq, not_or] at hc1
                    simp only [List.any_eq_true, decide_eq_true_eq] at hc6
                    simp only [decide_eq_true_eq] at hc8
                    refine ⟨hc1.1, hc1.2, hc2, by omega, by omega, by omega, ?_,
                      by omega, by omega⟩
                    intro row hrow
                    by_contra hcon
                    exact hc6 ⟨row, hrow, by omega⟩
  · rintro ⟨a, b, c, d4, d5, d6, d7, d8, d9⟩
    rw [if_neg (by
        intro hcon
        simp only [Bool.or_eq_true, decide_eq_true_eq] at hcon
        rcases hcon with h | h
        · exact a h
        · exact b h),
      if_neg c,
      if_neg (show ¬ (2 ^ 63 - 1 < inputs.length * 8) by omega),
      if_neg (show ¬ (2 ^ 63 - 1 < outputs.length * 8) by omega),
      if_neg (show ¬ (2 ^ 63 - 1 < inputs.length * outputs.length % 2 ^ 64) by omega),
      if_neg (by
        intro hcon
        simp only [List.any_eq_true, decide_eq_true_eq] at hcon
        obtain ⟨row, hrow, hlt⟩ := hcon
        have h2 := d7 row hrow
        omega),
      if_neg (show ¬ (2 ^ 63 - 1 < matrix_rows.length * inputs.length) by omega),
      if_neg (by
        intro hcon
        simp only [decide_eq_true_eq] at hcon
        omega)]

/-- C6: `encode` completes all validation (shard count, nonzero shard
length, uniform lengths) before any shard byte is written: on each
validation failure it returns the corresponding error, and the result is
independent of the coding primitives — no `cm256_encode_block` call is
made, so no shard buffer is modified. -/
theorem C6_encode_validates_before_writing (k m : Nat) (r : CM256ReedSolomon)
    (hr : new k m = .ok r) (shards : List (List GFByte)) :
    (shards.length < r.total_shard_count →
      ∀ ffi : CM256Ffi GFByte, encode ffi r shards = some (.error .TooFewShards)) ∧
    (r.total_shard_count < shards.length →
      ∀ ffi : CM256Ffi GFByte, encode ffi r shards = some (.error .TooManyShards)) ∧
    (∀ s rest, shards = s :: rest → shards.length = r.total_shard_count →
      s.length = 0 →
      ∀ ffi : CM256Ffi GFByte, encode ffi r shards = some (.error .EmptyShard)) ∧
    (∀ s rest, shards = s :: rest → shards.length = r.total_shard_count →
      s.length ≠ 0 → (∃ t ∈ rest, t.length ≠ s.length) →
      ∀ ffi : CM256Ffi GFByte, encode ffi r shards = some (.error .IncorrectShardSize)) := by
  refine ⟨fun h ffi => ?_, fun h ffi => ?_, fun s rest hsh hlen h0 ffi => ?_,
    fun s rest hsh hlen h0 hmis ffi => ?_⟩
  · rw [encode.eq_def, check_all_lt r h]
  · rw [encode.eq_def, check_all_gt r h]
  · subst hsh
    rw [encode.eq_def, check_all_ok r hlen, check_slices_uniform_empty s rest h0]
  · subst hsh
    rw [encode.eq_def, check_all_ok r hlen, check_slices_uniform_mismatch s rest h0 hmis]

/-- Witness for C6 at concrete ill-formed inputs (`k = m = 1`). -/
theorem C6_encode_validates_before_writing_witness :
    encode cm256Ffi ⟨1, 1, 2⟩ [[(0 : GFByte)]] = some (.error .TooFewShards) ∧
    encode cm256Ffi ⟨1, 1, 2⟩ [[(0 : GFByte)], [0], [0]] = some (.error .TooManyShards) ∧
    encode cm256Ffi ⟨1, 1, 2⟩ [[], [(0 : GFByte)]] = some (.error .EmptyShard) ∧
    encode cm256Ffi ⟨1, 1, 2⟩ [[(0 : GFByte)], [0, 0]] =
      some (.error .IncorrectShardSize) :=
  ⟨(C6_encode_validates_before_writing 1 1 ⟨1, 1, 2⟩ rfl _).1
      (by simp) cm256Ffi,
   (C6_encode_validates_before_writing 1 1 ⟨1, 1, 2⟩ rfl _).2.1
      (by simp) cm256Ffi,
   (C6_encode_validates_before_writing 1 1 ⟨1, 1, 2⟩ rfl _).2.2.1
      [] [[0]] rfl (by simp) rfl cm256Ffi,
   (C6_encode_validates_before_writing 1 1 ⟨1, 1, 2⟩ rfl _).2.2.2
      [0] [[0, 0]] rfl (by simp) (by simp)
      ⟨[0, 0], List.mem_singleton.2 rfl, by simp⟩ cm256Ffi⟩

/-- C10: `reconstruct` and `reconstruct_data` validate the present shards
before taking the all-present early return: with every slot present but some
shard empty (the nonempty ones uniform) the call fails with `EmptyShard`;
with no empty shard but differing lengths it fails with
`IncorrectShardSize`.  In both cases the error return is taken before any
write — the result does not depend on the coding primitives and no slot is
modified. -/
theorem C10_validates_before_early_return (k m : Nat) (r : CM256ReedSolomon)
    (hr : new k m = .ok r) (shards : List (Option (List GFByte)))
    (hlen : shards.length = r.total_shard_count)
    (hall : ∀ s ∈ shards, s.isSome = true) :
    ((∃ s ∈ shards, s = some ([] : List GFByte)) →
      (∀ v w : List GFByte, some v ∈ shards → some w ∈ shards →
        v.length ≠ 0 → w.length ≠ 0 → v.length = w.length) →
      ∀ ffi : CM256Ffi GFByte,
        reconstruct ffi r shards = some (.error .EmptyShard) ∧
        reconstruct_data ffi r shards = some (.error .EmptyShard)) ∧
    ((∀ s ∈ shards, ∀ v, s = some v → v.length ≠ 0) →
      (∃ v w : List GFByte, some v ∈ shards ∧ some w ∈ shards ∧
        v.length ≠ w.length) →
      ∀ ffi : CM256Ffi GFByte,
        reconstruct ffi r shards = some (.error .IncorrectShardSize) ∧
        reconstruct_data ffi r shards = some (.error .IncorrectShardSize)) := by
  constructor
  · intro hex huni ffi
    have hscan : scan_shards (none, 0) shards = .error .EmptyShard := by
      by_cases hpos : ∃ v : List GFByte, some v ∈ shards ∧ v.length ≠ 0
      · obtain ⟨v0, hv0, hv0ne⟩ := hpos
        refine scan_shards_empty v0.length shards none 0 (Or.inl rfl) ?_ hex
        intro s hs w hw
        subst hw
        by_cases hw0 : w.length = 0
        · exact Or.inr hw0
        · exact Or.inl (huni w v0 hs hv0 hw0 hv0ne)
      · push_neg at hpos
        refine scan_shards_empty 1 shards none 0 (Or.inl rfl) ?_ hex
        intro s hs w hw
        subst hw
        exact Or.inr (hpos w hs)
    have hmain : ∀ b, reconstruct_internal ffi r shards b =
        some (.error .EmptyShard) := by
      intro b
      rw [reconstruct_internal, check_all_ok r hlen, hscan]
    exact ⟨hmain false, hmain true⟩
  · intro hne hex ffi
    obtain ⟨v, w, hv, hw, hvw⟩ := hex
    have hscan : scan_shards (none, 0) shards = .error .IncorrectShardSize := by
      refine scan_shards_nonuniform shards none 0 hne ?_
      have hvmem : v.length ∈ (shards.filterMap id).map List.length :=
        List.mem_map_of_mem _ (List.mem_filterMap.2 ⟨some v, hv, rfl⟩)
      have hwmem : w.length ∈ (shards.filterMap id).map List.length :=
        List.mem_map_of_mem _ (List.mem_filterMap.2 ⟨some w, hw, rfl⟩)
      exact ⟨v.length, by simpa using hvmem, w.length, by simpa using hwmem, hvw⟩
    have hmain : ∀ b, reconstruct_internal ffi r shards b =
        some (.error .IncorrectShardSize) := by
      intro b
      rw [reconstruct_internal, check_all_ok r hlen, hscan]
    exact ⟨hmain false, hmain true⟩

/-- Witness for C10: an all-present set with an empty shard, and an
all-present set with mismatched sizes. -/
theorem C10_validates_before_early_return_witness :
    reconstruct cm256Ffi ⟨1, 1, 2⟩ [some [], some [(0 : GFByte)]] =
      some (.error .EmptyShard) ∧
    reconstruct cm256Ffi ⟨1, 1, 2⟩ [some [(0 : GFByte)], some [0, 0]] =
      some (.error .IncorrectShardSize) :=
  ⟨((C10_validates_before_early_return 1 1 ⟨1, 1, 2⟩ rfl
      [some [], some [(0 : GFByte)]] rfl (by simp)).1
      ⟨some [], by simp, rfl⟩
      (by
        intro v w hv hw hv0 hw0
        have hv2 : v = [] ∨ v = [0] := by simpa using hv
        have hw2 : w = [] ∨ w = [0] := by simpa using hw
        rcases hv2 with rfl | rfl
        · exact absurd rfl hv0
        · rcases hw2 with rfl | rfl
          · exact absurd rfl hw0
          · rfl)
      cm256Ffi).1,
   ((C10_validates_before_early_return 1 1 ⟨1, 1, 2⟩ rfl
      [some [(0 : GFByte)], some [0, 0]] rfl (by simp)).2
      (by
        intro s hs v hv
        subst hv
        have h2 : v = [0] ∨ v = [0, 0] := by simpa using hs
        rcases h2 with rfl | rfl <;> simp)
      ⟨[0], [0, 0], by simp, by simp, by simp⟩
      cm256Ffi).1⟩

/-- C4: `reconstruct` and `reconstruct_data` on a shard set with every slot
present (and uniform nonzero sizes, the data-model invariant of a shard
set) return success without altering any buffer. -/
theorem C4_noop_reconstruction (k m L : Nat) (r : CM256ReedSolomon)
    (hr : new k m = .ok r) (hL : L ≠ 0) (shards : List (Option (List GFByte)))
    (hlen : shards.length = r.total_shard_count)
    (hall : ∀ s ∈ shards, s.isSome = true)
    (hsz : ∀ s ∈ shards, ∀ v, s = some v → v.length = L) :
    reconstruct cm256Ffi r shards = some (.ok shards) ∧
    reconstruct_data cm256Ffi r shards = some (.ok shards) := by
  have hcnt : shards.countP Option.isSome = r.total_shard_count := by
    rw [← hlen]
    exact List.countP_eq_length.2 (fun s hs => hall s hs)
  have hscan := scan_shards_uniform L hL shards none 0 (Or.inl rfl) hsz
  have hmain : ∀ b, reconstruct_internal cm256Ffi r shards b = some (.ok shards) := by
    intro b
    rw [reconstruct_internal, check_all_ok r hlen, hscan]
    simp [hcnt]
  exact ⟨hmain false, hmain true⟩

/-- Witness for C4 at a concrete full shard set (`k = m = 1`). -/
theorem C4_noop_reconstruction_witness :
    reconstruct cm256Ffi ⟨1, 1, 2⟩ [some [(0 : GFByte)], some [0]] =
      some (.ok [some [(0 : GFByte)], some [0]]) ∧
    reconstruct_data cm256Ffi ⟨1, 1, 2⟩ [some [(0 : GFByte)], some [0]] =
      some (.ok [some [(0 : GFByte)], some [0]]) :=
  C4_noop_reconstruction 1 1 1 ⟨1, 1, 2⟩ rfl (by decide)
    [some [(0 : GFByte)], some [0]] rfl (by simp)
    (by
      intro s hs v hv
      subst hv
      have h2 : v = [0] := by simpa using hs
      subst h2
      rfl)

/-- C3: on a shard set holding a partially erased valid codeword family with
all data shards recoverable (at least `data_shard_count` slots present),
`reconstruct` succeeds and rewrites only the parity slots that were missing
at entry: every parity shard present at entry is returned bit-identical, and
every missing parity slot is filled. -/
theorem C3_selective_parity_recompute (k m L : Nat) (d : Nat → Nat → GFByte)
    (r : CM256ReedSolomon) (hr : new k m = .ok r) (hL : 1 ≤ L)
    (shards : List (Option (List GFByte)))
    (hlen : shards.length = k + m)
    (hcontent : ∀ i, i < k + m → ∀ v, shards.getD i none = some v →
      v = (List.range L).map fun p => codeword k (d p) i)
    (hpresent : k ≤ (List.range (k + m)).countP fun i => (shards.getD i none).isSome) :
    ∃ out, reconstruct cm256Ffi r shards = some (.ok out) ∧
      out.length = k + m ∧
      (∀ i, k ≤ i → (shards.getD i none).isSome = true →
        out.getD i none = shards.getD i none) ∧
      (∀ i, k ≤ i → i < k + m → (shards.getD i none).isNone = true →
        (out.getD i none).isSome = true) := by
  obtain ⟨hk, hm, hkm, hreq⟩ := new_ok hr
  subst hreq
  obtain ⟨out, h1, h2, h3, h4⟩ := reconstruct_model k m L d ⟨k, m, k + m⟩ rfl rfl rfl
    hk hkm hL shards hlen hcontent hpresent
  refine ⟨out, h1, h2, fun i _ hp => h3 i hp, ?_⟩
  intro i hge hi hmiss
  rw [h4 i hi]
  rfl

/-- Witness for C3 at `k = m = 1`: the data shard is present, the parity
shard is missing and gets rewritten. -/
theorem C3_selective_parity_recompute_witness :
    ∃ out, reconstruct cm256Ffi ⟨1, 1, 2⟩ [some [(0 : GFByte)], none] =
        some (.ok out) ∧
      out.length = 1 + 1 ∧
      (∀ i, 1 ≤ i → (([some [(0 : GFByte)], none].getD i none)).isSome = true →
        out.getD i none = [some [(0 : GFByte)], none].getD i none) ∧
      (∀ i, 1 ≤ i → i < 1 + 1 →
        (([some [(0 : GFByte)], none].getD i none)).isNone = true →
        (out.getD i none).isSome = true) :=
  C3_selective_parity_recompute 1 1 1 (fun _ _ => (0 : GFByte)) ⟨1, 1, 2⟩ rfl
    (by omega) [some [(0 : GFByte)], none] rfl
    (by
      intro i hi v hv
      interval_cases i
      · have h2 : [(0 : GFByte)] = v := by simpa using hv
        subst h2
        have h3 := codeword_at_data (k := 1) (by omega) (fun _ => (0 : GFByte))
          (i := 0) (by omega)
        simp [h3]
      · simp at hv)
    (by decide)

/-- C7: on a shard set of `total_shard_count` slots with valid (uniform,
nonzero) sizes, if fewer than `data_shard_count` slots are present, both
`reconstruct` and `reconstruct_data` fail with `TooFewShardsPresent` for
every choice of coding primitives — so no primitive runs and no slot is
written; and when the underlying `cm256_decode` call fails during data
recovery, the surfaced error is the same `TooFewShardsPresent` kind. -/
theorem C7_too_few_shards_present {β : Type} (k m L : Nat) (r : CM256ReedSolomon)
    (hr : new k m = .ok r) (hL : 1 ≤ L)
    (shards : List (Option (List β)))
    (hlen : shards.length = k + m)
    (hsz : ∀ i, i < k + m → ∀ v, shards.getD i none = some v → v.length = L) :
    (((List.range (k + m)).countP fun i => (shards.getD i none).isSome) < k →
      ∀ ffi : CM256Ffi β,
        reconstruct ffi r shards = some (.error .TooFewShardsPresent) ∧
        reconstruct_data ffi r shards = some (.error .TooFewShardsPresent)) ∧
    (∀ ffi : CM256Ffi β, (∀ ps bs, ffi.decode ps bs = none) →
      k ≤ ((List.range (k + m)).countP fun i => (shards.getD i none).isSome) →
      (∃ i0, i0 < k ∧ (shards.getD i0 none).isNone = true) →
      reconstruct ffi r shards = some (.error .TooFewShardsPresent) ∧
      reconstruct_data ffi r shards = some (.error .TooFewShardsPresent)) := by
  obtain ⟨hk, hm, hkm, hreq⟩ := new_ok hr
  have hdc : r.data_shard_count = k := by rw [hreq]
  have htc : r.total_shard_count = k + m := by rw [hreq]
  have hsz2 : ∀ s ∈ shards, ∀ v, s = some v → v.length = L := by
    intro s hs v hv
    obtain ⟨i, hilt, hgi⟩ := List.mem_iff_getElem.1 hs
    exact hsz i (by omega) v (by rw [List.getD_eq_getElem _ _ hilt, hgi, hv])
  have hscan := scan_shards_uniform L (by omega) shards none 0 (Or.inl rfl) hsz2
  have hcnt : shards.countP Option.isSome =
      (List.range (k + m)).countP fun i => (shards.getD i none).isSome := by
    rw [countP_eq_range_countP shards Option.isSome, hlen]
  constructor
  · intro hlt ffi
    have hmain : ∀ b, reconstruct_internal ffi r shards b =
        some (.error .TooFewShardsPresent) := by
      intro b
      rw [reconstruct_internal, check_all_ok _ (by omega), hscan]
      simp only []
      rw [if_neg (show ¬ (0 + shards.countP Option.isSome = r.total_shard_count)
          by omega),
        if_pos (show 0 + shards.countP Option.isSome < r.data_shard_count by omega)]
    exact ⟨by rw [reconstruct]; exact hmain false,
      by rw [reconstruct_data]; exact hmain true⟩
  · rintro ffi hdec hge ⟨i0, hi0k, hi0miss⟩
    have hdm : ¬ (((List.range k).filter fun i =>
        (shards.getD i none).isNone).isEmpty = true) := by
      intro hcontra
      have hnil := List.isEmpty_iff.1 hcontra
      have hmem : i0 ∈ (List.range k).filter fun i => (shards.getD i none).isNone :=
        List.mem_filter.2 ⟨List.mem_range.2 hi0k, hi0miss⟩
      rw [hnil] at hmem
      simp at hmem
    have hcount : ((List.range k).filter fun i => (shards.getD i none).isNone).length ≤
        ((List.range' k (k + m - k)).filter fun i =>
          (shards.getD i none).isSome).length := by
      have hsplitcnt : ((List.range (k + m)).countP fun i =>
          (shards.getD i none).isSome) =
          ((List.range k).countP fun i => (shards.getD i none).isSome) +
          ((List.range' k (k + m - k)).countP fun i => (shards.getD i none).isSome) := by
        rw [range_split k (k + m) (by omega), List.countP_append]
      have hdata_split := countP_option_split shards k
      rw [← List.countP_eq_length_filter, ← List.countP_eq_length_filter]
      omega
    obtain ⟨bs, es, hbuild, _, _, _, _⟩ :=
      build_blocks_range shards k (k + m) (by omega) hcount
    have hrecd : recover_data ffi (r.params L) r shards =
        some (.error .TooFewShardsPresent) := by
      simp only [recover_data, hdc, htc]
      rw [if_neg hdm, hbuild]
      simp only []
      rw [hdec]
    have hne : ¬ (0 + shards.countP Option.isSome = r.total_shard_count) := by
      intro hcon
      have hall2 : ∀ s ∈ shards, Option.isSome s = true :=
        List.countP_eq_length.1 (by omega)
      have h3 := hall2 (shards.getD i0 none) (getD_mem shards i0 none (by omega))
      exact (not_isSome_of_isNone hi0miss) h3
    have hmain : ∀ b, reconstruct_internal ffi r shards b =
        some (.error .TooFewShardsPresent) := by
      intro b
      rw [reconstruct_internal, check_all_ok _ (by omega), hscan,
        if_neg (show ¬ (shards.countP Option.isSome = 0) by omega)]
      simp only []
      rw [if_neg hne,
        if_neg (show ¬ (0 + shards.countP Option.isSome < r.data_shard_count)
          by omega)]
      rw [hrecd]
    exact ⟨by rw [reconstruct]; exact hmain false,
      by rw [reconstruct_data]; exact hmain true⟩

/-- Witness for C7 at `k = m = 1`: an all-missing set hits the precondition
check for any primitives, and a failing decode on a half-present set
surfaces the same error. -/
theorem C7_too_few_shards_present_witness :
    (reconstruct (⟨fun _ _ _ => [], fun _ _ => none⟩ : CM256Ffi Nat) ⟨1, 1, 2⟩
        [none, none] = some (.error .TooFewShardsPresent) ∧
      reconstruct_data (⟨fun _ _ _ => [], fun _ _ => none⟩ : CM256Ffi Nat) ⟨1, 1, 2⟩
        [none, none] = some (.error .TooFewShardsPresent)) ∧
    (reconstruct (⟨fun _ _ _ => [], fun _ _ => none⟩ : CM256Ffi Nat) ⟨1, 1, 2⟩
        [none, some [0]] = some (.error .TooFewShardsPresent) ∧
      reconstruct_data (⟨fun _ _ _ => [], fun _ _ => none⟩ : CM256Ffi Nat) ⟨1, 1, 2⟩
        [none, some [0]] = some (.error .TooFewShardsPresent)) :=
  ⟨(C7_too_few_shards_present 1 1 1 ⟨1, 1, 2⟩ rfl (by omega) [none, none] rfl
      (by intro i hi v hv; interval_cases i <;> simp at hv)).1
    (by decide) (⟨fun _ _ _ => [], fun _ _ => none⟩ : CM256Ffi Nat),
   (C7_too_few_shards_present 1 1 1 ⟨1, 1, 2⟩ rfl (by omega) [none, some [0]] rfl
      (by
        intro i hi v hv
        interval_cases i
        · simp at hv
        · have h2 : [0] = v := by simpa using hv
          subst h2
          rfl)).2
    (⟨fun _ _ _ => [], fun _ _ => none⟩ : CM256Ffi Nat) (fun _ _ => rfl)
    (by decide) ⟨0, by omega, rfl⟩⟩

end RSE
